import Mathlib

/-!
Verification of the passage-assembly and retrieval pipeline of the AE-Agent
repository.  Python strings are modelled as `List Char`; Python `str.split()`
(whitespace tokenisation) is modelled by `pyWords`; floats that are only
compared are modelled as `ℚ`; fallible Python code (code that may raise) is
modelled with `Except`/`Option`.
-/

/-- Model of Python's whitespace test used by `str.split()` and `str.strip()`.
Python splits on all unicode whitespace; every character actually occurring in
the repository's separators is ASCII, so the ASCII whitespace set suffices. -/
def pySpace (c : Char) : Bool :=
  c == ' ' || c == '\t' || c == '\n' || c == '\r' || c == '\x0b' || c == '\x0c'

/-- Accumulator worker for `pyWords`: `cur` holds the (reversed) current word. -/
def wordsAux : List Char → List Char → List (List Char)
  | cur, [] => if cur = [] then [] else [cur.reverse]
  | cur, c :: cs =>
    if pySpace c then
      if cur = [] then wordsAux [] cs else cur.reverse :: wordsAux [] cs
    else wordsAux (c :: cur) cs

/-- Model of Python `s.split()` (split on runs of whitespace, dropping empties). -/
def pyWords (l : List Char) : List (List Char) := wordsAux [] l

/-- Model of Python `" ".join(ws)`. -/
def joinSpace : List (List Char) → List Char
  | [] => []
  | [w] => w
  | w :: ws => w ++ ' ' :: joinSpace ws

/-! ## Chunk assembler (src/utils/hierarchical_chunking/chunk_markdown.py, main, lines 86-129)

The merging loop maintains `buffer_text`, `buffer_metadata`, `buffer_count` and
appends each semantic sub-passage, flushing to `merged_sections` whenever the
whitespace word count reaches `args.chunk_size`, with an optional word overlap
seed, and finally emits the leftover buffer when it is non-empty and has at
least `args.min_tokens` words. -/

/-- JSON-representable metadata value occurring in the repository: header
titles are strings and `merged_chunks` is an int. -/
inductive JVal where
  | jstr (s : List Char)
  | jint (n : Nat)
deriving DecidableEq

/-- Python dict with string keys, insertion-ordered, modelled as an
association list (the repository only builds dicts with distinct keys). -/
abbrev Meta := List (List Char × JVal)

/-- Model of Python dict assignment `m[k] = v`: update in place if the key is
present (keeping its position), otherwise append at the end. -/
def setKey (k : List Char) (v : JVal) : Meta → Meta
  | [] => [(k, v)]
  | (k', v') :: rest => if k' = k then (k, v) :: rest else (k', v') :: setKey k v rest

/-- The key `"merged_chunks"` used by the chunker. -/
def mergedKey : List Char := "merged_chunks".toList

/-- Transient state of the merging loop: `merged_sections`, `buffer_text`,
`buffer_metadata` and `buffer_count` of `chunk_markdown.main`. -/
structure MergeState where
  merged : List (List Char × Meta)
  buffer_text : List Char
  buffer_metadata : Meta
  buffer_count : Nat
deriving DecidableEq

/-- Initial state: `merged_sections = []`, `buffer_text = ""`,
`buffer_metadata = {}`, `buffer_count = 0`. -/
def initMerge : MergeState := ⟨[], [], [], 0⟩

/-- Metadata attached to an emitted chunk: a copy of `buffer_metadata` with
`merged_chunks` set to `buffer_count` when `buffer_count > 1` (lines 102-104
and 118-120 of the source). -/
def emitMeta (st : MergeState) : Meta :=
  if st.buffer_count > 1 then setKey mergedKey (JVal.jint st.buffer_count) st.buffer_metadata
  else st.buffer_metadata

/-- The last `min(ov, word count)` words of a text: this is
`text.split()[-ov:]` for `ov > 0`. -/
def lastOvWords (ov : Nat) (t : List Char) : List (List Char) :=
  (pyWords t).drop ((pyWords t).length - ov)

/-- The append phase of one loop iteration (lines 92-98): when the buffer is
falsy (empty string) the sub-passage replaces it and its metadata is adopted,
otherwise the sub-passage text is appended after a blank line
(`f"{buffer_text}\n\n{chunk_text}"`) and the merge count is incremented. -/
def appendBuf (st : MergeState) (ck : List Char × Meta) : MergeState :=
  if st.buffer_text = [] then
    { st with buffer_text := ck.1, buffer_metadata := ck.2, buffer_count := 1 }
  else
    { st with buffer_text := st.buffer_text ++ '\n' :: '\n' :: ck.1,
              buffer_count := st.buffer_count + 1 }

/-- One iteration of the loop `for chunk_text, chunk_metadata in semantic_chunks`
(lines 91-114): append, then flush when the buffer's word count reaches
`cs = args.chunk_size`.  On flush with `ov = args.overlap > 0` the next buffer
is seeded with `" ".join(buffer_text.split()[-args.overlap:])` and the
metadata of the sub-passage that triggered the flush; with `ov = 0` the buffer
is fully reset. -/
def mergeStep (cs ov : Nat) (st : MergeState) (ck : List Char × Meta) : MergeState :=
  if (pyWords (appendBuf st ck).buffer_text).length ≥ cs then
    if ov > 0 then
      { merged := (appendBuf st ck).merged ++
          [((appendBuf st ck).buffer_text, emitMeta (appendBuf st ck))]
        buffer_text := joinSpace (lastOvWords ov (appendBuf st ck).buffer_text)
        buffer_metadata := ck.2
        buffer_count := 1 }
    else
      { merged := (appendBuf st ck).merged ++
          [((appendBuf st ck).buffer_text, emitMeta (appendBuf st ck))]
        buffer_text := []
        buffer_metadata := []
        buffer_count := 0 }
  else appendBuf st ck

/-- The final-buffer emission after the loop (lines 116-121): emit the buffer
when it is non-empty (Python truthiness) and has at least `mt = args.min_tokens`
words, else discard it. -/
def mergeFinal (mt : Nat) (st : MergeState) : List (List Char × Meta) :=
  if st.buffer_text ≠ [] then
    if (pyWords st.buffer_text).length ≥ mt then st.merged ++ [(st.buffer_text, emitMeta st)]
    else st.merged
  else st.merged

/-- The complete assembly of `merged_sections` from the semantic sub-passages:
the loop over all sub-passages followed by the final-buffer emission.
`cs = args.chunk_size` (target size), `mt = args.min_tokens` (minimum),
`ov = args.overlap`. -/
def mergeAll (cs mt ov : Nat) (input : List (List Char × Meta)) : List (List Char × Meta) :=
  mergeFinal mt (List.foldl (mergeStep cs ov) initMerge input)

/-- Total whitespace token count of a sequence of sub-passages. -/
def totalWords (input : List (List Char × Meta)) : Nat :=
  (input.map fun ck => (pyWords ck.1).length).sum

/-- Overlap relation between consecutive emitted chunks: the second chunk's
word sequence begins with exactly the last `min(ov, word count)` words of the
first chunk's text, and that shared span has length at most `ov`. -/
def overlapRel (ov : Nat) (p q : List Char × Meta) : Prop :=
  lastOvWords ov p.1 <+: pyWords q.1 ∧
  (lastOvWords ov p.1).length = min ov (pyWords p.1).length ∧
  (lastOvWords ov p.1).length ≤ ov

/-- Loop invariant for the overlap property: all previously emitted chunks are
pairwise overlap-consistent, and the current buffer extends the overlap seed of
the most recently emitted chunk. -/
def overlapInv (ov : Nat) (st : MergeState) : Prop :=
  List.Chain' (overlapRel ov) st.merged ∧
  ∀ p ∈ st.merged.getLast?, lastOvWords ov p.1 <+: pyWords st.buffer_text

/-! ## Configuration handling (src/utils/hierarchical_chunking/chunk_markdown.py, lines 11-66)

`parse_args` accepts `--chunk-size`, `--min-tokens` and `--overlap` without any
validation, and `main` runs the assembly loop directly on whatever values were
parsed; no code path in the module inspects the relation between
`chunk_size` and `min_tokens` or raises an error for it. -/

/-- Error kind named by the spec for invalid size/threshold parameters.  No
such class (and no size validation at all) exists in the source. -/
inductive ChunkConfigError where
  | configurationError (msg : List Char)
deriving DecidableEq

/-- The configuration-plus-run phase of `chunk_markdown.main` as seen by a
caller, with an error-capable codomain so that the spec's claimed
`ConfigurationError` is expressible: the source performs no validation of
`chunk_size / min_tokens / overlap`, so every configuration is accepted and
the merge loop always runs, i.e. the result is always `.ok`. -/
def assembleChunks (cs mt ov : Nat) (input : List (List Char × Meta)) :
    Except ChunkConfigError (List (List Char × Meta)) :=
  Except.ok (mergeAll cs mt ov input)

/-! ## Retrieval re-ranking (src/utils/retrieval_qa/retrieval_qa.py, lines 20-49)

`get_reranker` keeps a module-global `_reranker` that is constructed on first
use and returned unchanged afterwards; `rerank_documents` returns early on an
empty pool, otherwise scores all `(query, page_content)` pairs in one batched
`predict` call and stably sorts by score descending
(`sorted(zip(docs, scores), key=lambda item: item[1], reverse=True)`),
truncating to `top_k`.  Module-global state is modelled by explicit state
passing, the cross-encoder collaborator by a function argument, and its float
scores by `ℚ`. -/

/-- Langchain `Document` as read by the re-ranker (only `page_content` is
used). -/
structure PyDoc where
  page_content : List Char
deriving DecidableEq

/-- A constructed `CrossEncoder(model_name)`: the model is opaque, so the
observable content is the name it was constructed with. -/
structure CrossEncoder where
  model_name : List Char
deriving DecidableEq

/-- Model of `get_reranker` (lines 23-27) with the module-global `_reranker`
made explicit: takes the current value of `_reranker` and returns the model
to use together with the new value of `_reranker`. -/
def get_reranker (state : Option CrossEncoder) (model_name : List Char) :
    CrossEncoder × Option CrossEncoder :=
  match state with
  | none => (⟨model_name⟩, some ⟨model_name⟩)
  | some r => (r, some r)

/-- A sequence of `get_reranker` calls within one process, starting from the
given `_reranker` value: returns the models handed back to each caller, the
final cache, and how many times a `CrossEncoder` was constructed. -/
def rerankerCalls : Option CrossEncoder → List (List Char) →
    List CrossEncoder × Option CrossEncoder × Nat
  | st, [] => ([], st, 0)
  | st, n :: ns =>
    let constructed : Nat := if st = none then 1 else 0
    let out := get_reranker st n
    let rest := rerankerCalls out.2 ns
    (out.1 :: rest.1, rest.2.1, constructed + rest.2.2)

/-- Stable insertion into a descending-sorted scored list: the new element
goes before the first element whose score is not greater, so that among equal
scores earlier input elements stay first. -/
def insertScoredDesc (x : PyDoc × ℚ) : List (PyDoc × ℚ) → List (PyDoc × ℚ)
  | [] => [x]
  | y :: ys => if x.2 ≥ y.2 then x :: y :: ys else y :: insertScoredDesc x ys

/-- Model of Python `sorted(pairs, key=lambda item: item[1], reverse=True)`:
Python's sort is stable, and the stable descending sort of a list is unique,
so this stable insertion sort computes exactly Python's result. -/
def sortScoredDesc : List (PyDoc × ℚ) → List (PyDoc × ℚ)
  | [] => []
  | x :: xs => insertScoredDesc x (sortScoredDesc xs)

/-- Model of `rerank_documents` (lines 30-37): early return of the empty pool,
one batched scoring call over all `(query, page_content)` pairs (a raised
exception propagates unchanged), stable descending sort of `zip(docs, scores)`
by score, truncation to `top_k`, projection back to documents. -/
def rerank_documents {ε : Type} (query : List Char) (docs : List PyDoc) (top_k : Nat)
    (predict : List (List Char × List Char) → Except ε (List ℚ)) :
    Except ε (List PyDoc) :=
  if docs = [] then Except.ok docs
  else
    match predict (docs.map fun d => (query, d.page_content)) with
    | Except.error e => Except.error e
    | Except.ok scores =>
      Except.ok (((sortScoredDesc (docs.zip scores)).take top_k).map Prod.fst)

/-! ## Paced batch runner
(src/evaluation/dataset_gen_service/dataset_gen_service.py, generate_testset_with_pacing,
lines 111-168)

The generation collaborator `generator.generate_with_langchain_docs` together
with `testset_to_rows` is modelled as a function from the global attempt index
(so that stateful collaborators such as "fail twice, then succeed" are
expressible) and the requested batch size to either rows or a raised exception
message.  Sleeps and collaborator calls are recorded as an event trace.
Python floats used only in arithmetic and comparisons are modelled as `ℚ`. -/

/-- Observable events of one run: a collaborator call (with its global attempt
index and requested `testset_size`), a retry back-off sleep, an inter-batch
pacing sleep. -/
inductive Ev where
  | genCall (idx size : Nat)
  | retrySleep (d : ℚ)
  | pacingSleep (d : ℚ)
deriving DecidableEq

/-- Python `small in big` on strings. -/
def containsSub (big small : List Char) : Bool :=
  big.tails.any fun t => small.isPrefixOf t

/-- The error classification of lines 141-153: `message = str(exc).lower()`,
then `is_rate_limit = "rate limit" in message or "429" in message` and
`is_transient = any(keyword in message for keyword in (...))` with the
source's six keywords; the batch is retried when either flag holds.
`Char.toLower` covers ASCII case folding, which is exhaustive for the ASCII
marker substrings being searched. -/
def classifyTransient (msg : List Char) : Bool :=
  let m := msg.map Char.toLower
  let is_rate_limit := containsSub m "rate limit".toList || containsSub m "429".toList
  let is_transient :=
    containsSub m "timeout".toList || containsSub m "connection".toList ||
    containsSub m "temporarily unavailable".toList ||
    containsSub m "internal server error".toList ||
    containsSub m "service unavailable".toList ||
    containsSub m "upstream connect error".toList
  is_rate_limit || is_transient

/-- The inner `while True` retry loop (lines 132-162) for one batch of size
`current_size`: call the collaborator; on success return its rows; on failure
re-raise unless the message is classified transient/rate-limited and
`attempt < max_retries`, in which case sleep
`retry_sleep_seconds * retry_backoff ** attempt`, increment `attempt` and
retry the same batch.  Returns the batch outcome, the next global attempt
index, and the emitted events. -/
def attemptLoop {Row : Type} (gen : Nat → Nat → Except (List Char) (List Row))
    (max_retries : Nat) (retry_sleep retry_backoff : ℚ)
    (current_size idx attempt : Nat) :
    Except (List Char) (List Row) × Nat × List Ev :=
  match gen idx current_size with
  | Except.ok rs => (Except.ok rs, idx + 1, [Ev.genCall idx current_size])
  | Except.error e =>
    if h : classifyTransient e = true ∧ attempt < max_retries then
      let d := retry_sleep * retry_backoff ^ attempt
      let next := attemptLoop gen max_retries retry_sleep retry_backoff
        current_size (idx + 1) (attempt + 1)
      (next.1, next.2.1, Ev.genCall idx current_size :: Ev.retrySleep d :: next.2.2)
    else (Except.error e, idx + 1, [Ev.genCall idx current_size])
termination_by max_retries + 1 - attempt
decreasing_by omega

/-- The outer `while remaining > 0` loop (lines 126-168): take
`current_size = min(batch_size, remaining)`, run the retry loop for the batch,
on success extend `rows`, decrement `remaining` and sleep `sleep_seconds`
between batches when positive; on a re-raised failure the exception propagates
to the caller (the accumulated `rows` local is abandoned).  The hypothesis
`0 < batch_size` mirrors `main`'s up-front `--batch-size must be at least 1`
check, without which the source loop would not terminate. -/
def runBatches {Row : Type} (gen : Nat → Nat → Except (List Char) (List Row))
    (batch_size : Nat) (hb : 0 < batch_size) (sleep_seconds : ℚ)
    (max_retries : Nat) (retry_sleep retry_backoff : ℚ) :
    Nat → Nat → List Row → Except (List Char) (List Row) × List Ev :=
  fun remaining idx rows =>
  if _h : 0 < remaining then
    let current_size := min batch_size remaining
    let batch := attemptLoop gen max_retries retry_sleep retry_backoff current_size idx 0
    match batch.1 with
    | Except.error e => (Except.error e, batch.2.2)
    | Except.ok rs =>
      let remaining2 := remaining - current_size
      let evs := if 0 < remaining2 ∧ 0 < sleep_seconds then
        batch.2.2 ++ [Ev.pacingSleep sleep_seconds] else batch.2.2
      let rest := runBatches gen batch_size hb sleep_seconds max_retries
        retry_sleep retry_backoff remaining2 batch.2.1 (rows ++ rs)
      (rest.1, evs ++ rest.2)
  else (Except.ok rows, [])
termination_by remaining => remaining
decreasing_by omega

/-- Model of `generate_testset_with_pacing` as seen by its caller: run the paced loop
from `remaining = total`, attempt index 0 and no accumulated rows. -/
def generate_testset_with_pacing {Row : Type}
    (gen : Nat → Nat → Except (List Char) (List Row)) (total batch_size : Nat)
    (hb : 0 < batch_size) (sleep_seconds : ℚ) (max_retries : Nat)
    (retry_sleep retry_backoff : ℚ) : Except (List Char) (List Row) × List Ev :=
  runBatches gen batch_size hb sleep_seconds max_retries retry_sleep retry_backoff total 0 []

/-- The requested sizes of the collaborator calls in a trace. -/
def callSizes (evs : List Ev) : List Nat :=
  evs.filterMap fun e =>
    match e with
    | Ev.genCall _ s => some s
    | _ => none

/-- The retry back-off sleeps in a trace. -/
def retrySleeps (evs : List Ev) : List ℚ :=
  evs.filterMap fun e =>
    match e with
    | Ev.retrySleep d => some d
    | _ => none

/-- The batch-size sequence described by the spec: repeatedly issue
`min(batch_size, remaining)` until `remaining` is zero. -/
def specBatchSizes (batch_size : Nat) (hb : 0 < batch_size) : Nat → List Nat :=
  fun remaining =>
  if _h : 0 < remaining then
    min batch_size remaining :: specBatchSizes batch_size hb (remaining - min batch_size remaining)
  else []
termination_by remaining => remaining
decreasing_by omega

/-- Global collaborator of the spec §8 retry scenario: the first two calls
fail with a "429 rate limit" message, every later call succeeds with the
requested number of rows. -/
def gen429 : Nat → Nat → Except (List Char) (List Nat) :=
  fun i n => if i < 2 then Except.error "429 rate limit hit".toList
    else Except.ok (List.replicate n 0)

/-! ## JSON-lines boundary
(writer: src/utils/hierarchical_chunking/chunk_markdown.py lines 123-129;
readers: src/utils/semantic_encoder/semantic_encoder.py load_chunks lines
38-50 and src/evaluation/dataset_gen_service/dataset_gen_service.py
load_documents lines 22-35)

The writer emits one `json.dumps({"text": ..., "metadata": ...},
ensure_ascii=True) + "\n"` per merged section.  `json.dumps` with
`ensure_ascii=True` escapes `"` and `\`, uses the short escapes
`\n \t \r \b \f`, `\u00XX` for other control characters, emits printable
ASCII raw, and escapes all non-ASCII as `\uXXXX` (surrogate pairs beyond the
BMP); default separators are `", "` and `": "`.  `json.loads` is modelled by
a recursive-descent parser for the JSON fragment the writer can produce
(objects of string/int values, strings, non-negative integers); on that
fragment it agrees with Python's parser.  Braces are written `'\x7b'`/`'\x7d'`. -/

/-- Lowercase hexadecimal digit, as emitted by Python's `\uXXXX` escapes. -/
def hexDigitChar : Nat → Char
  | 0 => '0' | 1 => '1' | 2 => '2' | 3 => '3' | 4 => '4'
  | 5 => '5' | 6 => '6' | 7 => '7' | 8 => '8' | 9 => '9'
  | 10 => 'a' | 11 => 'b' | 12 => 'c' | 13 => 'd' | 14 => 'e' | _ => 'f'

/-- Four-digit hexadecimal rendering of `n < 0x10000`. -/
def toHex4 (n : Nat) : List Char :=
  [hexDigitChar (n / 4096 % 16), hexDigitChar (n / 256 % 16),
   hexDigitChar (n / 16 % 16), hexDigitChar (n % 16)]

/-- The escape of one character under `json.dumps(..., ensure_ascii=True)`. -/
def escapeChar (c : Char) : List Char :=
  if c = '"' then ['\\', '"']
  else if c = '\\' then ['\\', '\\']
  else if c = '\n' then ['\\', 'n']
  else if c = '\t' then ['\\', 't']
  else if c = '\r' then ['\\', 'r']
  else if c = '\x08' then ['\\', 'b']
  else if c = '\x0c' then ['\\', 'f']
  else if c.toNat < 32 then '\\' :: 'u' :: toHex4 c.toNat
  else if c.toNat ≤ 126 then [c]
  else if c.toNat < 65536 then '\\' :: 'u' :: toHex4 c.toNat
  else '\\' :: 'u' :: toHex4 (55296 + (c.toNat - 65536) / 1024) ++
       '\\' :: 'u' :: toHex4 (56320 + (c.toNat - 65536) % 1024)

/-- JSON string-content escaping of a whole string. -/
def escapeStr (s : List Char) : List Char := (s.map escapeChar).flatten

/-- A JSON string literal: `"` content `"`. -/
def renderJStr (s : List Char) : List Char := '"' :: escapeStr s ++ ['"']

/-- Decimal digit character. -/
def digitChar : Nat → Char
  | 0 => '0' | 1 => '1' | 2 => '2' | 3 => '3' | 4 => '4'
  | 5 => '5' | 6 => '6' | 7 => '7' | 8 => '8' | _ => '9'

/-- Decimal rendering worker; `fuel > n` suffices. -/
def natToCharsAux : Nat → Nat → List Char
  | 0, _ => []
  | fuel + 1, n =>
    if n < 10 then [digitChar n]
    else natToCharsAux fuel (n / 10) ++ [digitChar (n % 10)]

/-- Decimal rendering of a non-negative integer, as `json.dumps` prints the
`merged_chunks` int. -/
def natToChars (n : Nat) : List Char := natToCharsAux (n + 1) n

/-- Rendering of one metadata value. -/
def renderJVal : JVal → List Char
  | JVal.jstr s => renderJStr s
  | JVal.jint n => natToChars n

/-- Rendering of one `"key": value` member with `json.dumps`'s `": "`. -/
def renderPair (kv : List Char × JVal) : List Char :=
  renderJStr kv.1 ++ ':' :: ' ' :: renderJVal kv.2

/-- Join with `json.dumps`'s item separator `", "`. -/
def joinCommaSpace : List (List Char) → List Char
  | [] => []
  | [x] => x
  | x :: xs => x ++ ',' :: ' ' :: joinCommaSpace xs

/-- Rendering of the metadata object (`{}` when empty). -/
def renderMeta (m : Meta) : List Char :=
  match m with
  | [] => ['\x7b', '\x7d']
  | _ => '\x7b' :: joinCommaSpace (m.map renderPair) ++ ['\x7d']

/-- One output line of the writer loop (line 125-129):
`json.dumps({"text": text, "metadata": metadata}, ensure_ascii=True)`. -/
def renderRecord (r : List Char × Meta) : List Char :=
  '\x7b' :: renderJStr "text".toList ++ ':' :: ' ' :: renderJStr r.1 ++
    ',' :: ' ' :: renderJStr "metadata".toList ++ ':' :: ' ' :: renderMeta r.2 ++
      ['\x7d']

/-- The whole JSONL file written for `merged_sections`: each record followed
by a newline. -/
def writeRecords (rs : List (List Char × Meta)) : List Char :=
  (rs.map fun r => renderRecord r ++ ['\n']).flatten

/-- JSON whitespace accepted between tokens by `json.loads`. -/
def jsonWs (c : Char) : Bool := c == ' ' || c == '\t' || c == '\n' || c == '\r'

/-- Skip JSON whitespace. -/
def skipWs (l : List Char) : List Char := l.dropWhile jsonWs

/-- Hexadecimal digit value (`json.loads` accepts both cases). -/
def hexVal (c : Char) : Option Nat :=
  if '0' ≤ c ∧ c ≤ '9' then some (c.toNat - 48)
  else if 'a' ≤ c ∧ c ≤ 'f' then some (c.toNat - 87)
  else if 'A' ≤ c ∧ c ≤ 'F' then some (c.toNat - 55)
  else none

/-- Read four hexadecimal digits. -/
def readHex4 : List Char → Option (Nat × List Char)
  | a :: b :: c :: d :: rest =>
    match hexVal a, hexVal b, hexVal c, hexVal d with
    | some x, some y, some z, some w => some (x * 4096 + y * 256 + z * 16 + w, rest)
    | _, _, _, _ => none
  | _ => none

/-- The short backslash escapes accepted inside JSON strings. -/
def shortUnescape (c : Char) : Option Char :=
  if c = '"' then some '"'
  else if c = '\\' then some '\\'
  else if c = '/' then some '/'
  else if c = 'n' then some '\n'
  else if c = 't' then some '\t'
  else if c = 'r' then some '\r'
  else if c = 'b' then some '\x08'
  else if c = 'f' then some '\x0c'
  else none

/-- JSON string-content parser (after the opening quote), with `\uXXXX`
escapes including surrogate pairs; `fuel` bounds the number of decoded
characters. -/
def parseStrAux : Nat → List Char → Option (List Char × List Char)
  | 0, _ => none
  | _ + 1, [] => none
  | fuel + 1, c :: rest =>
    if c = '"' then some ([], rest)
    else if c = '\\' then
      match rest with
      | [] => none
      | e :: rest2 =>
        if e = 'u' then
          match readHex4 rest2 with
          | none => none
          | some (n, rest3) =>
            if 55296 ≤ n ∧ n < 56320 then
              match rest3 with
              | c1 :: c2 :: rest4 =>
                if c1 = '\\' ∧ c2 = 'u' then
                  match readHex4 rest4 with
                  | none => none
                  | some (m, rest5) =>
                    if 56320 ≤ m ∧ m < 57344 then
                      match parseStrAux fuel rest5 with
                      | some (s, r) =>
                        some (Char.ofNat ((n - 55296) * 1024 + (m - 56320) + 65536) :: s, r)
                      | none => none
                    else none
                else none
              | _ => none
            else if 56320 ≤ n ∧ n < 57344 then none
            else
              match parseStrAux fuel rest3 with
              | some (s, r) => some (Char.ofNat n :: s, r)
              | none => none
        else
          match shortUnescape e with
          | some c2 =>
            match parseStrAux fuel rest2 with
            | some (s, r) => some (c2 :: s, r)
            | none => none
          | none => none
    else if c.toNat < 32 then none
    else
      match parseStrAux fuel rest with
      | some (s, r) => some (c :: s, r)
      | none => none

/-- JSON string literal parser. -/
def parseJStr (fuel : Nat) (l : List Char) : Option (List Char × List Char) :=
  match l with
  | c :: rest => if c = '"' then parseStrAux fuel rest else none
  | [] => none

/-- Decimal digit test. -/
def isDigitCh (c : Char) : Bool := '0' ≤ c && c ≤ '9'

/-- Non-negative JSON integer parser (the only number shape the writer
emits). -/
def parseNat (l : List Char) : Option (Nat × List Char) :=
  let ds := l.takeWhile isDigitCh
  if ds = [] then none
  else some (ds.foldl (fun a c => a * 10 + (c.toNat - 48)) 0, l.dropWhile isDigitCh)

/-- Scalar metadata value parser: string or non-negative integer. -/
def parseJVal (fuel : Nat) (l : List Char) : Option (JVal × List Char) :=
  match l with
  | [] => none
  | c :: rest =>
    if c = '"' then
      match parseStrAux fuel rest with
      | some (s, r) => some (JVal.jstr s, r)
      | none => none
    else if isDigitCh c then
      match parseNat l with
      | some (n, r) => some (JVal.jint n, r)
      | none => none
    else none

/-- Members of a non-empty JSON object of scalar values, up to and including
the closing brace. -/
def parseMetaPairs : Nat → List Char → Option (Meta × List Char)
  | 0, _ => none
  | fuel + 1, l =>
    match parseJStr (fuel + 1) l with
    | none => none
    | some (k, r1) =>
      match skipWs r1 with
      | [] => none
      | c :: r2 =>
        if c = ':' then
          match parseJVal (fuel + 1) (skipWs r2) with
          | none => none
          | some (v, r3) =>
            match skipWs r3 with
            | [] => none
            | c2 :: r4 =>
              if c2 = ',' then
                match parseMetaPairs fuel (skipWs r4) with
                | some (m, r5) => some ((k, v) :: m, r5)
                | none => none
              else if c2 = '\x7d' then some ([(k, v)], r4)
              else none
        else none

/-- JSON object of scalar values (the metadata object). -/
def parseMetaObj (fuel : Nat) (l : List Char) : Option (Meta × List Char) :=
  match l with
  | [] => none
  | c :: r =>
    if c = '\x7b' then
      match skipWs r with
      | [] => none
      | c2 :: r2 =>
        if c2 = '\x7d' then some ([], r2)
        else parseMetaPairs fuel (skipWs r)
    else none

/-- A top-level record value: string, non-negative integer, or an object of
scalars. -/
inductive TopVal where
  | vstr (s : List Char)
  | vint (n : Nat)
  | vobj (m : Meta)
deriving DecidableEq

/-- Top-level record value parser. -/
def parseTopVal (fuel : Nat) (l : List Char) : Option (TopVal × List Char) :=
  match l with
  | [] => none
  | c :: rest =>
    if c = '"' then
      match parseStrAux fuel rest with
      | some (s, r) => some (TopVal.vstr s, r)
      | none => none
    else if c = '\x7b' then
      match parseMetaObj fuel l with
      | some (m, r) => some (TopVal.vobj m, r)
      | none => none
    else if isDigitCh c then
      match parseNat l with
      | some (n, r) => some (TopVal.vint n, r)
      | none => none
    else none

/-- Members of a non-empty top-level JSON object, up to and including the
closing brace. -/
def parseTopPairs : Nat → List Char → Option (List (List Char × TopVal) × List Char)
  | 0, _ => none
  | fuel + 1, l =>
    match parseJStr (fuel + 1) l with
    | none => none
    | some (k, r1) =>
      match skipWs r1 with
      | [] => none
      | c :: r2 =>
        if c = ':' then
          match parseTopVal (fuel + 1) (skipWs r2) with
          | none => none
          | some (v, r3) =>
            match skipWs r3 with
            | [] => none
            | c2 :: r4 =>
              if c2 = ',' then
                match parseTopPairs fuel (skipWs r4) with
                | some (m, r5) => some ((k, v) :: m, r5)
                | none => none
              else if c2 = '\x7d' then some ([(k, v)], r4)
              else none
        else none

/-- Model of `json.loads` on one line, for the fragment the writer emits: a top-level
object with string keys and string/int/object values, with nothing but
whitespace after it. -/
def parseRecordLine (l : List Char) : Option (List (List Char × TopVal)) :=
  match skipWs l with
  | [] => none
  | c :: r =>
    if c = '\x7b' then
      match skipWs r with
      | [] => none
      | c2 :: r2 =>
        if c2 = '\x7d' then (if skipWs r2 = [] then some [] else none)
        else
          match parseTopPairs (l.length + 1) (skipWs r) with
          | some (kvs, rest) => if skipWs rest = [] then some kvs else none
          | none => none
    else none

/-- Key lookup in a parsed record.  Python's dict keeps the last of duplicate
keys while this first-match lookup keeps the first; the writer only ever
emits records whose keys are distinct, where both agree. -/
def lookupKey (kvs : List (List Char × TopVal)) (k : List Char) : Option TopVal :=
  match kvs with
  | [] => none
  | (k1, v) :: rest => if k1 = k then some v else lookupKey rest k

/-- Split file contents into lines at newline characters, as iterating over
a Python file yields lines (the trailing empty piece is whitespace-only and
is skipped by both loaders). -/
def splitLines : List Char → List (List Char)
  | [] => [[]]
  | c :: cs =>
    if c = '\n' then [] :: splitLines cs
    else
      match splitLines cs with
      | l :: ls => (c :: l) :: ls
      | [] => [[c]]

/-- Python `line.strip()`. -/
def stripChars (l : List Char) : List Char :=
  ((l.dropWhile pySpace).reverse.dropWhile pySpace).reverse

/-- Model of `load_chunks` of semantic_encoder.py (lines 38-50) over the split lines,
threading `idx = enumerate(f)`: skip blank lines, `json.loads` each other
line (a parse failure raises, modelled as `none`), take
`record.get("metadata", {})`, replace a falsy (empty) metadata dict by
`{"chunk_index": idx}`, and take `record["text"]` (a missing text key
raises). -/
def load_chunks_lines : Nat → List (List Char) → Option (List (List Char × Meta))
  | _, [] => some []
  | idx, line :: rest =>
    if stripChars line = [] then load_chunks_lines (idx + 1) rest
    else
      match parseRecordLine (stripChars line) with
      | none => none
      | some kvs =>
        match (match lookupKey kvs "metadata".toList with
               | some (TopVal.vobj m) => some m
               | none => some []
               | some _ => none) with
        | none => none
        | some m0 =>
          match lookupKey kvs "text".toList with
          | some (TopVal.vstr t) =>
            match load_chunks_lines (idx + 1) rest with
            | some tail =>
              some ((t, if m0 = [] then [("chunk_index".toList, JVal.jint idx)] else m0)
                :: tail)
            | none => none
          | _ => none

/-- Model of `load_chunks(path)` on a whole file. -/
def load_chunks (file : List Char) : Option (List (List Char × Meta)) :=
  load_chunks_lines 0 (splitLines file)

/-- Model of `load_documents` of dataset_gen_service.py (lines 22-35) over the split
lines: skip blank lines, `json.loads`, skip records whose `text` is falsy
(missing or empty), keep `record.get("metadata", {})` unchanged. -/
def load_documents_lines : List (List Char) → Option (List (List Char × Meta))
  | [] => some []
  | line :: rest =>
    if stripChars line = [] then load_documents_lines rest
    else
      match parseRecordLine (stripChars line) with
      | none => none
      | some kvs =>
        match lookupKey kvs "text".toList with
        | none => load_documents_lines rest
        | some (TopVal.vstr t) =>
          if t = [] then load_documents_lines rest
          else
            match (match lookupKey kvs "metadata".toList with
                   | some (TopVal.vobj m) => some m
                   | none => some []
                   | some _ => none) with
            | none => none
            | some m =>
              match load_documents_lines rest with
              | some tail => some ((t, m) :: tail)
              | none => none
        | some _ => none

/-- Model of `load_documents(path)` on a whole file. -/
def load_documents (file : List Char) : Option (List (List Char × Meta)) :=
  load_documents_lines (splitLines file)

/-- Expected result of `load_chunks` on written records: empty metadata is
replaced by the enumeration index, other metadata kept. -/
def chunksExpected : Nat → List (List Char × Meta) → List (List Char × Meta)
  | _, [] => []
  | idx, (t, m) :: rest =>
    (t, if m = [] then [("chunk_index".toList, JVal.jint idx)] else m)
      :: chunksExpected (idx + 1) rest

theorem wordsAux_allspace (b : List Char) :
    ∀ sep : List Char, (∀ c ∈ sep, pySpace c = true) →
      wordsAux [] (sep ++ b) = wordsAux [] b := by
  intro sep
  induction sep with
  | nil => intro _; rfl
  | cons s sep' ih =>
    intro hs
    have h1 : pySpace s = true := hs s (List.mem_cons_self s sep')
    simp only [List.cons_append, wordsAux, h1, if_pos rfl, if_true]
    exact ih fun c hc => hs c (List.mem_cons_of_mem s hc)

theorem wordsAux_append_sep (sep b : List Char)
    (hsep : ∀ c ∈ sep, pySpace c = true) (hne : sep ≠ []) :
    ∀ (a cur : List Char),
      wordsAux cur (a ++ (sep ++ b)) = wordsAux cur a ++ wordsAux [] b := by
  intro a
  induction a with
  | nil =>
    intro cur
    match sep, hne with
    | s :: sep', _ =>
      have h1 : pySpace s = true := hsep s (List.mem_cons_self s sep')
      have h0 : wordsAux [] (sep' ++ b) = wordsAux [] b :=
        wordsAux_allspace b sep' fun c hc => hsep c (List.mem_cons_of_mem s hc)
      by_cases hc : cur = []
      · subst hc
        simp only [List.nil_append, List.cons_append, wordsAux, h1, if_true, if_pos rfl,
          List.append_eq, h0]
      · simp only [List.nil_append, List.cons_append, wordsAux, h1, if_true, if_neg hc,
          List.append_eq, h0]
  | cons c a' ih =>
    intro cur
    by_cases hsp : pySpace c = true
    · by_cases hc : cur = []
      · subst hc
        simp only [List.cons_append, wordsAux, hsp, if_true, if_pos rfl, List.append_eq, ih]
      · simp only [List.cons_append, wordsAux, hsp, if_true, if_neg hc, List.append_eq, ih,
          List.cons_append]
    · simp only [List.cons_append, wordsAux, hsp, if_false, Bool.false_eq_true,
        List.append_eq, ih]

/-- Splitting a concatenation at a non-empty all-whitespace separator splits
each part independently: `pyWords (a ++ sep ++ b) = pyWords a ++ pyWords b`. -/
theorem pyWords_append (a sep b : List Char)
    (hsep : ∀ c ∈ sep, pySpace c = true) (hne : sep ≠ []) :
    pyWords (a ++ sep ++ b) = pyWords a ++ pyWords b := by
  have := wordsAux_append_sep sep b hsep hne a []
  simpa [pyWords, List.append_assoc] using this

theorem wordsAux_all_nonspace (w : List Char) (hw : ∀ c ∈ w, pySpace c = false) :
    ∀ cur : List Char,
      wordsAux cur w = if cur = [] ∧ w = [] then [] else [cur.reverse ++ w] := by
  induction w with
  | nil =>
    intro cur
    by_cases hc : cur = []
    · subst hc; simp [wordsAux]
    · simp [wordsAux, hc]
  | cons c w' ih =>
    intro cur
    have h1 : pySpace c = false := hw c (List.mem_cons_self c w')
    have ih2 := ih (fun d hd => hw d (List.mem_cons_of_mem c hd)) (c :: cur)
    simp only [wordsAux, h1, Bool.false_eq_true, if_false, ih2]
    simp

/-- A non-empty fully-non-whitespace string splits into the single word itself. -/
theorem pyWords_single (w : List Char) (hne : w ≠ [])
    (hw : ∀ c ∈ w, pySpace c = false) : pyWords w = [w] := by
  have := wordsAux_all_nonspace w hw []
  simpa [pyWords, hne] using this

/-- Every word produced by `pyWords` is non-empty and whitespace-free. -/
theorem pyWords_wf (l : List Char) :
    ∀ w ∈ pyWords l, w ≠ [] ∧ ∀ c ∈ w, pySpace c = false := by
  suffices h : ∀ (l cur : List Char), (∀ c ∈ cur, pySpace c = false) →
      ∀ w ∈ wordsAux cur l, w ≠ [] ∧ ∀ c ∈ w, pySpace c = false by
    intro w hw
    exact h l [] (by simp) w hw
  intro l
  induction l with
  | nil =>
    intro cur hcur w hw
    by_cases hc : cur = []
    · subst hc; simp [wordsAux] at hw
    · simp [wordsAux, hc] at hw
      subst hw
      refine ⟨by simpa using hc, ?_⟩
      intro c hc2
      exact hcur c (by simpa using hc2)
  | cons c l' ih =>
    intro cur hcur w hw
    by_cases hsp : pySpace c = true
    · by_cases hc : cur = []
      · subst hc
        simp only [wordsAux, hsp, if_true, if_pos rfl] at hw
        exact ih [] (by simp) w hw
      · simp only [wordsAux, hsp, if_true, if_neg hc] at hw
        rcases List.mem_cons.mp hw with hw | hw
        · subst hw
          refine ⟨by simpa using hc, ?_⟩
          intro d hd
          exact hcur d (by simpa using hd)
        · exact ih [] (by simp) w hw
    · simp only [wordsAux, hsp, Bool.false_eq_true, if_false] at hw
      refine ih (c :: cur) ?_ w hw
      intro d hd
      rcases List.mem_cons.mp hd with hd | hd
      · subst hd; simpa using hsp
      · exact hcur d hd

/-- Joining non-empty whitespace-free words with single spaces and re-splitting
recovers exactly the words: `pyWords (joinSpace ws) = ws`. -/
theorem pyWords_joinSpace (ws : List (List Char))
    (h : ∀ w ∈ ws, w ≠ [] ∧ ∀ c ∈ w, pySpace c = false) :
    pyWords (joinSpace ws) = ws := by
  induction ws with
  | nil => rfl
  | cons w ws' ih =>
    match ws' with
    | [] =>
      have hw := h w (List.mem_cons_self w [])
      simpa [joinSpace] using pyWords_single w hw.1 hw.2
    | v :: vs =>
      have hw := h w (List.mem_cons_self w (v :: vs))
      have hrest : ∀ x ∈ v :: vs, x ≠ [] ∧ ∀ c ∈ x, pySpace c = false :=
        fun x hx => h x (List.mem_cons_of_mem w hx)
      have hj : joinSpace (w :: v :: vs) = w ++ [' '] ++ joinSpace (v :: vs) := by
        simp [joinSpace]
      rw [hj, pyWords_append w [' '] (joinSpace (v :: vs)) (by simp [pySpace]) (by simp),
        pyWords_single w hw.1 hw.2, ih hrest]
      rfl

example : pyWords "ab  cd\n\ne".toList = [['a','b'], ['c','d'], ['e']] := by decide

example : joinSpace [['a','b'], ['c']] = "ab c".toList := by decide

example :
    mergeAll 5 1 1 [("one two three".toList, []), ("four five six".toList, [])] =
      [("one two three\n\nfour five six".toList,
        [(mergedKey, JVal.jint 2)]), ("six".toList, [])] := by decide

theorem appendBuf_merged (st : MergeState) (ck : List Char × Meta) :
    (appendBuf st ck).merged = st.merged := by
  rw [appendBuf]
  split <;> rfl

/-- Appending a sub-passage adds exactly its words to the buffer. -/
theorem pyWords_appendBuf (st : MergeState) (ck : List Char × Meta) :
    pyWords (appendBuf st ck).buffer_text = pyWords st.buffer_text ++ pyWords ck.1 := by
  by_cases hb : st.buffer_text = []
  · rw [appendBuf, if_pos hb, hb]
    rfl
  · rw [appendBuf, if_neg hb]
    have := pyWords_append st.buffer_text ['\n', '\n'] ck.1 (by simp [pySpace]) (by simp)
    simpa using this

theorem mergeStep_no_flush (cs ov : Nat) (st : MergeState) (ck : List Char × Meta)
    (h : ¬ (pyWords (appendBuf st ck).buffer_text).length ≥ cs) :
    mergeStep cs ov st ck = appendBuf st ck := by
  rw [mergeStep, if_neg h]

theorem mergeStep_flush_ov (cs ov : Nat) (st : MergeState) (ck : List Char × Meta)
    (h : (pyWords (appendBuf st ck).buffer_text).length ≥ cs) (hov : 0 < ov) :
    mergeStep cs ov st ck =
      { merged := (appendBuf st ck).merged ++
          [((appendBuf st ck).buffer_text, emitMeta (appendBuf st ck))]
        buffer_text := joinSpace (lastOvWords ov (appendBuf st ck).buffer_text)
        buffer_metadata := ck.2
        buffer_count := 1 } := by
  rw [mergeStep, if_pos h, if_pos hov]

/-- While the accumulated word count stays below the flush threshold `cs`, the
loop emits nothing and the buffer accumulates all the words of the input. -/
theorem mergeFoldl_no_flush (cs ov : Nat) :
    ∀ (input : List (List Char × Meta)) (st : MergeState),
      (pyWords st.buffer_text).length + totalWords input < cs →
      (List.foldl (mergeStep cs ov) st input).merged = st.merged ∧
      pyWords (List.foldl (mergeStep cs ov) st input).buffer_text =
        pyWords st.buffer_text ++ (input.map fun ck => pyWords ck.1).flatten := by
  intro input
  induction input with
  | nil => intro st _; simp
  | cons ck rest ih =>
    intro st hlt
    have htot : totalWords (ck :: rest) = (pyWords ck.1).length + totalWords rest := by
      simp [totalWords]
    have hcnt : (pyWords (appendBuf st ck).buffer_text).length =
        (pyWords st.buffer_text).length + (pyWords ck.1).length := by
      rw [pyWords_appendBuf]
      exact List.length_append _ _
    have hnf : ¬ (pyWords (appendBuf st ck).buffer_text).length ≥ cs := by omega
    rw [List.foldl_cons, mergeStep_no_flush cs ov st ck hnf]
    have hih := ih (appendBuf st ck) (by omega)
    refine ⟨by rw [hih.1, appendBuf_merged], ?_⟩
    rw [hih.2, pyWords_appendBuf]
    simp [List.append_assoc]

/-- The word count of the buffer after a no-flush run is the total word count. -/
theorem mergeFoldl_words_total (cs ov : Nat) (input : List (List Char × Meta))
    (hlt : totalWords input < cs) :
    (List.foldl (mergeStep cs ov) initMerge input).merged = [] ∧
    (pyWords (List.foldl (mergeStep cs ov) initMerge input).buffer_text).length =
      totalWords input := by
  have h0 : pyWords (initMerge.buffer_text) = [] := rfl
  have := mergeFoldl_no_flush cs ov input initMerge (by rw [h0]; simpa using hlt)
  refine ⟨by simpa [initMerge] using this.1, ?_⟩
  rw [this.2, h0]
  simp only [List.nil_append, List.length_flatten, totalWords, List.map_map]
  congr 1

theorem mergeAll_final_emit (cs mt ov : Nat) (input : List (List Char × Meta)) (h1 : 1 ≤ mt)
    (h : mt ≤ (pyWords (List.foldl (mergeStep cs ov) initMerge input).buffer_text).length) :
    mergeAll cs mt ov input =
      (List.foldl (mergeStep cs ov) initMerge input).merged ++
        [((List.foldl (mergeStep cs ov) initMerge input).buffer_text,
          emitMeta (List.foldl (mergeStep cs ov) initMerge input))] := by
  have hne : (List.foldl (mergeStep cs ov) initMerge input).buffer_text ≠ [] := by
    intro he
    rw [he] at h
    have : pyWords ([] : List Char) = [] := rfl
    rw [this] at h
    simp at h
    omega
  rw [mergeAll, mergeFinal, if_pos hne, if_pos h]

theorem mergeAll_final_discard (cs mt ov : Nat) (input : List (List Char × Meta))
    (h : (pyWords (List.foldl (mergeStep cs ov) initMerge input).buffer_text).length < mt) :
    mergeAll cs mt ov input = (List.foldl (mergeStep cs ov) initMerge input).merged := by
  rw [mergeAll, mergeFinal]
  by_cases hne : (List.foldl (mergeStep cs ov) initMerge input).buffer_text ≠ []
  · rw [if_pos hne, if_neg (by omega)]
  · rw [if_neg hne]

/-- C3 (amended): with `1 ≤ min_size ≤ target_size`, and tokens counted as
whitespace-split words: an input whose total token count is below `min_size`
yields zero passages; an input whose total token count lies in
`[min_size, target_size)` yields exactly one passage; and after the input is
exhausted, the leftover buffer is emitted exactly when its token count is at
least `min_size`, otherwise it is silently discarded. -/
theorem chunkAssembler_size_window (cs mt ov : Nat) (h1 : 1 ≤ mt) (h2 : mt ≤ cs)
    (input : List (List Char × Meta)) :
    (totalWords input < mt → mergeAll cs mt ov input = []) ∧
    (mt ≤ totalWords input → totalWords input < cs → (mergeAll cs mt ov input).length = 1) ∧
    (mt ≤ (pyWords (List.foldl (mergeStep cs ov) initMerge input).buffer_text).length →
      mergeAll cs mt ov input =
        (List.foldl (mergeStep cs ov) initMerge input).merged ++
          [((List.foldl (mergeStep cs ov) initMerge input).buffer_text,
            emitMeta (List.foldl (mergeStep cs ov) initMerge input))]) ∧
    ((pyWords (List.foldl (mergeStep cs ov) initMerge input).buffer_text).length < mt →
      mergeAll cs mt ov input = (List.foldl (mergeStep cs ov) initMerge input).merged) := by
  refine ⟨?_, ?_, fun h => mergeAll_final_emit cs mt ov input h1 h,
    fun h => mergeAll_final_discard cs mt ov input h⟩
  · intro hlt
    have hlt2 : totalWords input < cs := by omega
    have hm := mergeFoldl_words_total cs ov input hlt2
    rw [mergeAll_final_discard cs mt ov input (by omega), hm.1]
  · intro hge hlt
    have hm := mergeFoldl_words_total cs ov input hlt
    rw [mergeAll_final_emit cs mt ov input h1 (by omega), hm.1]
    rfl

/-- Witness for `chunkAssembler_size_window` at a concrete input: config
`target_size = 5`, `min_size = 2`, three-word input, exactly one passage. -/
theorem chunkAssembler_size_window_witness :
    2 ≤ totalWords [("one two three".toList, ([] : Meta))] ∧
    totalWords [("one two three".toList, ([] : Meta))] < 5 ∧
    (mergeAll 5 2 0 [("one two three".toList, ([] : Meta))]).length = 1 :=
  ⟨by decide, by decide,
    (chunkAssembler_size_window 5 2 0 (by decide) (by decide)
      [("one two three".toList, ([] : Meta))]).2.1 (by decide) (by decide)⟩

/-- Counterexample to C3 as stated: the claim's precondition only requires
`min_size ≤ target_size`, so it admits `min_size = 0`; with `min_size = 0`,
`target_size = 5` and an input whose total token count is `0`
(which lies in `[min_size, target_size) = [0, 5)`), the assembler emits zero
passages, not exactly one as the claim requires. -/
theorem chunkAssembler_size_window_cex :
    (0 : Nat) ≤ 5 ∧ totalWords [(("" : String).toList, ([] : Meta))] = 0 ∧
    (0 : Nat) < 5 ∧ mergeAll 5 0 0 [(("" : String).toList, ([] : Meta))] = [] := by
  refine ⟨by decide, by decide, by decide, by decide⟩

theorem lastOvWords_length (ov : Nat) (t : List Char) :
    (lastOvWords ov t).length = min ov (pyWords t).length := by
  rw [lastOvWords, List.length_drop]
  omega

theorem overlapInv_init (ov : Nat) : overlapInv ov initMerge := by
  constructor
  · simp [initMerge]
  · simp [initMerge]

theorem mergeStep_overlapInv (cs ov : Nat) (hov : 0 < ov) (st : MergeState)
    (ck : List Char × Meta) (h : overlapInv ov st) :
    overlapInv ov (mergeStep cs ov st ck) := by
  have hpre : ∀ p ∈ st.merged.getLast?,
      lastOvWords ov p.1 <+: pyWords (appendBuf st ck).buffer_text := by
    intro p hp
    rw [pyWords_appendBuf]
    exact (h.2 p hp).trans (List.prefix_append _ _)
  by_cases hfl : (pyWords (appendBuf st ck).buffer_text).length ≥ cs
  · rw [mergeStep_flush_ov cs ov st ck hfl hov]
    constructor
    · show List.Chain' (overlapRel ov)
        ((appendBuf st ck).merged ++ [((appendBuf st ck).buffer_text, emitMeta (appendBuf st ck))])
      rw [List.chain'_append, appendBuf_merged]
      refine ⟨h.1, List.chain'_singleton _, ?_⟩
      intro x hx y hy
      simp only [List.head?_cons, Option.mem_def, Option.some.injEq] at hy
      subst hy
      exact ⟨hpre x hx, lastOvWords_length ov x.1, by rw [lastOvWords_length]; omega⟩
    · intro p hp
      have hp2 : p ∈ ((appendBuf st ck).merged ++
          [((appendBuf st ck).buffer_text, emitMeta (appendBuf st ck))]).getLast? := hp
      simp only [List.getLast?_concat, Option.mem_def, Option.some.injEq] at hp2
      subst hp2
      show lastOvWords ov (appendBuf st ck).buffer_text <+:
        pyWords (joinSpace (lastOvWords ov (appendBuf st ck).buffer_text))
      have hwf : ∀ w ∈ lastOvWords ov (appendBuf st ck).buffer_text,
          w ≠ [] ∧ ∀ c ∈ w, pySpace c = false :=
        fun w hw => pyWords_wf _ w (List.drop_subset _ _ hw)
      rw [pyWords_joinSpace _ hwf]
  · rw [mergeStep_no_flush cs ov st ck hfl]
    refine ⟨?_, ?_⟩
    · rw [appendBuf_merged]
      exact h.1
    · rw [appendBuf_merged]
      exact hpre

theorem mergeFoldl_overlapInv (cs ov : Nat) (hov : 0 < ov)
    (input : List (List Char × Meta)) :
    ∀ st : MergeState, overlapInv ov st →
      overlapInv ov (List.foldl (mergeStep cs ov) st input) := by
  induction input with
  | nil => intro st h; exact h
  | cons ck rest ih =>
    intro st h
    rw [List.foldl_cons]
    exact ih (mergeStep cs ov st ck) (mergeStep_overlapInv cs ov hov st ck h)

/-- C4: with a positive overlap budget, in the emitted chunk sequence every
chunk begins (in whitespace words) with exactly the last
`min(overlap, word count)` words of the preceding chunk, a shared span of
length at most `overlap`. -/
theorem chunk_overlap_budget (cs mt ov : Nat) (hov : 0 < ov)
    (input : List (List Char × Meta)) :
    List.Chain' (overlapRel ov) (mergeAll cs mt ov input) := by
  have hinv := mergeFoldl_overlapInv cs ov hov input initMerge (overlapInv_init ov)
  rw [mergeAll, mergeFinal]
  by_cases hne : (List.foldl (mergeStep cs ov) initMerge input).buffer_text ≠ []
  · rw [if_pos hne]
    by_cases hge : (pyWords (List.foldl (mergeStep cs ov) initMerge input).buffer_text).length ≥ mt
    · rw [if_pos hge, List.chain'_append]
      refine ⟨hinv.1, List.chain'_singleton _, ?_⟩
      intro x hx y hy
      simp only [List.head?_cons, Option.mem_def, Option.some.injEq] at hy
      subst hy
      exact ⟨hinv.2 x hx, lastOvWords_length ov x.1, by rw [lastOvWords_length]; omega⟩
    · rw [if_neg hge]
      exact hinv.1
  · rw [if_neg hne]
    exact hinv.1

/-- Witness for `chunk_overlap_budget`: the spec §8 scenario with
`target_size = 5`, `min_size = 2`, `overlap = 1`: the second chunk begins with
the last word of the first chunk. -/
theorem chunk_overlap_budget_witness :
    (0 : Nat) < 1 ∧
    List.Chain' (overlapRel 1)
      (mergeAll 5 2 1 [("Title Sentence one. Sentence two. Sentence three.".toList, [])]) :=
  ⟨Nat.one_pos, chunk_overlap_budget 5 2 1 Nat.one_pos
    [("Title Sentence one. Sentence two. Sentence three.".toList, [])]⟩

/-- C8 (amended): the code performs no construction-time validation: every
configuration with `target_size < min_size` is accepted and the assembly runs
to completion on any input, returning the merge loop's output; no
`ConfigurationError` is ever raised. -/
theorem assembleChunks_no_validation (cs mt ov : Nat) (_hinv : cs < mt)
    (input : List (List Char × Meta)) :
    assembleChunks cs mt ov input = Except.ok (mergeAll cs mt ov input) ∧
    ∀ e : ChunkConfigError, assembleChunks cs mt ov input ≠ Except.error e :=
  ⟨rfl, fun _ h => Except.noConfusion h⟩

/-- Witness for `assembleChunks_no_validation` at the invalid configuration
`target_size = 1 < min_size = 3`. -/
theorem assembleChunks_no_validation_witness :
    (1 : Nat) < 3 ∧
    assembleChunks 1 3 0 [("alpha beta".toList, ([] : Meta))] =
      Except.ok (mergeAll 1 3 0 [("alpha beta".toList, ([] : Meta))]) :=
  ⟨by decide,
    (assembleChunks_no_validation 1 3 0 (by decide) [("alpha beta".toList, ([] : Meta))]).1⟩

/-- Counterexample to C8 as stated: with the invalid configuration
`target_size = 1 < min_size = 3` the assembler does not raise a
`ConfigurationError` at construction (or ever): the run proceeds and produces
ordinary output (the two-word input is flushed by the in-loop threshold of 1,
so a passage is emitted, demonstrating that processing continued past any
claimed construction-time check). -/
theorem assembleChunks_cex :
    (1 : Nat) < 3 ∧
    assembleChunks 1 3 0 [("alpha beta".toList, ([] : Meta))] =
      Except.ok [("alpha beta".toList, ([] : Meta))] := by
  refine ⟨by decide, rfl⟩

example :
    @rerank_documents Unit "q".toList [⟨"a".toList⟩, ⟨"b".toList⟩, ⟨"c".toList⟩] 2
      (fun ps => Except.ok (ps.map fun p => if p.2 = "b".toList then (5 : ℚ) else 1)) =
      Except.ok [⟨"b".toList⟩, ⟨"a".toList⟩] := by rfl

theorem insertScoredDesc_perm (x : PyDoc × ℚ) (l : List (PyDoc × ℚ)) :
    (insertScoredDesc x l).Perm (x :: l) := by
  induction l with
  | nil => exact List.Perm.refl _
  | cons y ys ih =>
    rw [insertScoredDesc]
    by_cases h : x.2 ≥ y.2
    · rw [if_pos h]
    · rw [if_neg h]
      exact (ih.cons y).trans (List.Perm.swap x y ys)

theorem sortScoredDesc_perm (l : List (PyDoc × ℚ)) : (sortScoredDesc l).Perm l := by
  induction l with
  | nil => exact List.Perm.refl _
  | cons x xs ih =>
    rw [sortScoredDesc]
    exact (insertScoredDesc_perm x (sortScoredDesc xs)).trans (ih.cons x)

theorem insertScoredDesc_pairwise (x : PyDoc × ℚ) (l : List (PyDoc × ℚ))
    (h : List.Pairwise (fun a b : PyDoc × ℚ => b.2 ≤ a.2) l) :
    List.Pairwise (fun a b : PyDoc × ℚ => b.2 ≤ a.2) (insertScoredDesc x l) := by
  induction l with
  | nil => simp [insertScoredDesc]
  | cons y ys ih =>
    rw [insertScoredDesc]
    rcases List.pairwise_cons.mp h with ⟨hy, hys⟩
    by_cases hxy : x.2 ≥ y.2
    · rw [if_pos hxy]
      refine List.pairwise_cons.mpr ⟨?_, h⟩
      intro z hz
      rcases List.mem_cons.mp hz with hz | hz
      · subst hz; exact hxy
      · exact le_trans (hy z hz) hxy
    · rw [if_neg hxy]
      refine List.pairwise_cons.mpr ⟨?_, ih hys⟩
      intro z hz
      have hz2 : z ∈ x :: ys := (insertScoredDesc_perm x ys).mem_iff.mp hz
      rcases List.mem_cons.mp hz2 with hz2 | hz2
      · subst hz2; exact le_of_not_ge hxy
      · exact hy z hz2

theorem sortScoredDesc_sorted (l : List (PyDoc × ℚ)) :
    List.Pairwise (fun a b : PyDoc × ℚ => b.2 ≤ a.2) (sortScoredDesc l) := by
  induction l with
  | nil => simp [sortScoredDesc]
  | cons x xs ih => exact insertScoredDesc_pairwise x (sortScoredDesc xs) ih

theorem insertScoredDesc_filter (x : PyDoc × ℚ) (l : List (PyDoc × ℚ)) (s : ℚ) :
    (insertScoredDesc x l).filter (fun y => decide (y.2 = s)) =
      if x.2 = s then x :: l.filter (fun y => decide (y.2 = s))
      else l.filter (fun y => decide (y.2 = s)) := by
  induction l with
  | nil =>
    by_cases h : x.2 = s <;> simp [insertScoredDesc, List.filter_cons, h]
  | cons y ys ih =>
    rw [insertScoredDesc]
    by_cases hxy : x.2 ≥ y.2
    · rw [if_pos hxy]
      by_cases h : x.2 = s <;> simp [List.filter_cons, h]
    · rw [if_neg hxy]
      by_cases hy : y.2 = s
      · have hx : ¬ x.2 = s := by
          intro h
          exact hxy (ge_of_eq (h.trans hy.symm))
        simp [List.filter_cons, hy, hx, ih]
      · by_cases hx : x.2 = s <;> simp [List.filter_cons, hy, hx, ih]

/-- Stability of the descending sort: for any score, the elements carrying
that score appear in the sorted output in exactly their input order. -/
theorem sortScoredDesc_filter (l : List (PyDoc × ℚ)) (s : ℚ) :
    (sortScoredDesc l).filter (fun y => decide (y.2 = s)) =
      l.filter (fun y => decide (y.2 = s)) := by
  induction l with
  | nil => rfl
  | cons x xs ih =>
    rw [sortScoredDesc, insertScoredDesc_filter, ih]
    by_cases h : x.2 = s <;> simp [List.filter_cons, h]

/-- C2: with a scoring collaborator that succeeds and returns one score per
candidate, the re-ranker's output is exactly the first
`min(rerank_k, pool size)` documents of the stable descending sort of the
scored pool; the ranked prefix is sorted by score descending; equal scores
keep their incoming similarity order; every retained score is at least every
excluded score; when `rerank_k ≥` pool size the output is a permutation of
the whole pool; and an empty pool yields an empty result with no error. -/
theorem rerank_documents_spec {ε : Type} (query : List Char) (docs : List PyDoc)
    (top_k : Nat) (predict : List (List Char × List Char) → Except ε (List ℚ))
    (scores : List ℚ)
    (hp : predict (docs.map fun d => (query, d.page_content)) = Except.ok scores)
    (hl : scores.length = docs.length) :
    rerank_documents query docs top_k predict =
      Except.ok (((sortScoredDesc (docs.zip scores)).take top_k).map Prod.fst) ∧
    ((sortScoredDesc (docs.zip scores)).take top_k).length = min top_k docs.length ∧
    List.Pairwise (fun a b : PyDoc × ℚ => b.2 ≤ a.2)
      ((sortScoredDesc (docs.zip scores)).take top_k) ∧
    (∀ s : ℚ, (sortScoredDesc (docs.zip scores)).filter (fun y => decide (y.2 = s)) =
      (docs.zip scores).filter (fun y => decide (y.2 = s))) ∧
    (∀ a ∈ (sortScoredDesc (docs.zip scores)).take top_k,
      ∀ b ∈ (sortScoredDesc (docs.zip scores)).drop top_k, b.2 ≤ a.2) ∧
    (docs.length ≤ top_k →
      (((sortScoredDesc (docs.zip scores)).take top_k).map Prod.fst).Perm docs) ∧
    (∀ predict2 : List (List Char × List Char) → Except ε (List ℚ),
      rerank_documents query ([] : List PyDoc) top_k predict2 = Except.ok []) := by
  refine ⟨?_, ?_, ?_, fun s => sortScoredDesc_filter _ s, ?_, ?_, fun p2 => rfl⟩
  · by_cases hd : docs = []
    · subst hd
      simp at hl
      subst hl
      simp [rerank_documents, sortScoredDesc]
    · rw [rerank_documents, if_neg hd, hp]
  · rw [List.length_take, (sortScoredDesc_perm _).length_eq, List.length_zip, hl, min_self]
  · exact List.Pairwise.sublist (List.take_sublist _ _) (sortScoredDesc_sorted _)
  · intro a ha b hb
    exact List.Sorted.rel_of_mem_take_of_mem_drop (sortScoredDesc_sorted _) ha hb
  · intro hk
    have hlen : (sortScoredDesc (docs.zip scores)).length ≤ top_k := by
      rw [(sortScoredDesc_perm _).length_eq, List.length_zip, hl, min_self]
      exact hk
    rw [List.take_of_length_le hlen]
    have h2 : (docs.zip scores).map Prod.fst = docs :=
      List.map_fst_zip docs scores (le_of_eq hl.symm)
    have h3 : ((sortScoredDesc (docs.zip scores)).map Prod.fst).Perm
        ((docs.zip scores).map Prod.fst) := (sortScoredDesc_perm _).map Prod.fst
    rw [h2] at h3
    exact h3

/-- Witness for `rerank_documents_spec` at a concrete two-document pool. -/
theorem rerank_documents_spec_witness :
    @rerank_documents Unit "q".toList [⟨"a".toList⟩, ⟨"b".toList⟩] 1
      (fun _ => Except.ok [(1 : ℚ), 5]) =
      Except.ok (((sortScoredDesc
        ([⟨"a".toList⟩, ⟨"b".toList⟩].zip [(1 : ℚ), 5])).take 1).map Prod.fst) :=
  (rerank_documents_spec "q".toList [⟨"a".toList⟩, ⟨"b".toList⟩] 1
    (fun _ => Except.ok [(1 : ℚ), 5]) [(1 : ℚ), 5] rfl (by decide)).1

/-- C7: if the batched scoring call on a non-empty pool fails, the re-ranker
call fails with that same underlying error (the spec's `RerankFailure`
carrying the cause is realised as the collaborator's exception propagating
unchanged), and in particular it never falls back to returning any document
list in similarity order. -/
theorem rerank_failure_propagates {ε : Type} (query : List Char) (docs : List PyDoc)
    (top_k : Nat) (predict : List (List Char × List Char) → Except ε (List ℚ)) (e : ε)
    (hne : docs ≠ [])
    (hp : predict (docs.map fun d => (query, d.page_content)) = Except.error e) :
    rerank_documents query docs top_k predict = Except.error e ∧
    ∀ out : List PyDoc, rerank_documents query docs top_k predict ≠ Except.ok out := by
  have h1 : rerank_documents query docs top_k predict = Except.error e := by
    rw [rerank_documents, if_neg hne, hp]
  refine ⟨h1, fun out h => ?_⟩
  rw [h1] at h
  exact Except.noConfusion h

/-- Witness for `rerank_failure_propagates` with a collaborator that raises. -/
theorem rerank_failure_propagates_witness :
    @rerank_documents (List Char) "q".toList [⟨"d".toList⟩] 8
      (fun _ => Except.error "boom".toList) = Except.error "boom".toList :=
  (rerank_failure_propagates "q".toList [⟨"d".toList⟩] 8
    (fun _ => Except.error "boom".toList) "boom".toList (by decide) rfl).1

/-- C10: starting from an empty module cache, a whole sequence of
`get_reranker` calls constructs a model exactly once (on the first call), and
every call returns the model built from the first call's `model_name`,
ignoring all later `model_name` arguments — so two retrievers configured with
different rerank model names in one process both score with the model loaded
first. -/
theorem reranker_global_cache (n : List Char) (ns : List (List Char)) :
    rerankerCalls none (n :: ns) =
      (List.replicate (ns.length + 1) (⟨n⟩ : CrossEncoder),
        some (⟨n⟩ : CrossEncoder), 1) := by
  have hsome : ∀ (ms : List (List Char)) (r : CrossEncoder),
      rerankerCalls (some r) ms = (List.replicate ms.length r, some r, 0) := by
    intro ms
    induction ms with
    | nil => intro r; rfl
    | cons m ms' ih =>
      intro r
      simp [rerankerCalls, get_reranker, ih, List.replicate]
  simp [rerankerCalls, get_reranker, hsome, List.replicate]

example : classifyTransient "OpenAI 429 Rate Limit hit".toList = true := by decide

example : classifyTransient "invalid request".toList = false := by decide

example : classifyTransient "backend unavailable".toList = false := by decide

example : classifyTransient "service unavailable".toList = true := by decide

example :
    callSizes (generate_testset_with_pacing (fun _ n => Except.ok (List.replicate n 0)) 20 7
      (by decide) 0 5 0 2).2 = [7, 7, 6] := by
  simp [generate_testset_with_pacing, runBatches, attemptLoop, callSizes]

theorem attemptLoop_ok {Row : Type} (gen : Nat → Nat → Except (List Char) (List Row))
    (mr : Nat) (rs rb : ℚ) (size idx attempt : Nat) (out : List Row)
    (hg : gen idx size = Except.ok out) :
    attemptLoop gen mr rs rb size idx attempt =
      (Except.ok out, idx + 1, [Ev.genCall idx size]) := by
  rw [attemptLoop.eq_def, hg]

theorem attemptLoop_retry {Row : Type} (gen : Nat → Nat → Except (List Char) (List Row))
    (mr : Nat) (rs rb : ℚ) (size idx attempt : Nat) (e : List Char)
    (hg : gen idx size = Except.error e) (hcl : classifyTransient e = true)
    (hlt : attempt < mr) :
    attemptLoop gen mr rs rb size idx attempt =
      ((attemptLoop gen mr rs rb size (idx + 1) (attempt + 1)).1,
       (attemptLoop gen mr rs rb size (idx + 1) (attempt + 1)).2.1,
       Ev.genCall idx size :: Ev.retrySleep (rs * rb ^ attempt) ::
         (attemptLoop gen mr rs rb size (idx + 1) (attempt + 1)).2.2) := by
  rw [attemptLoop.eq_def, hg]
  exact dif_pos ⟨hcl, hlt⟩

theorem attemptLoop_raise {Row : Type} (gen : Nat → Nat → Except (List Char) (List Row))
    (mr : Nat) (rs rb : ℚ) (size idx attempt : Nat) (e : List Char)
    (hg : gen idx size = Except.error e)
    (hnc : ¬ (classifyTransient e = true ∧ attempt < mr)) :
    attemptLoop gen mr rs rb size idx attempt =
      (Except.error e, idx + 1, [Ev.genCall idx size]) := by
  rw [attemptLoop.eq_def, hg]
  exact dif_neg hnc

/-- Whenever the retry loop reports success, some collaborator call for this
batch size actually returned those rows. -/
theorem attemptLoop_ok_inv {Row : Type} (gen : Nat → Nat → Except (List Char) (List Row))
    (mr : Nat) (rs rb : ℚ) (size : Nat) (out : List Row) :
    ∀ (fuel attempt idx : Nat), mr + 1 - attempt ≤ fuel →
      (attemptLoop gen mr rs rb size idx attempt).1 = Except.ok out →
      ∃ j, gen j size = Except.ok out := by
  intro fuel
  induction fuel with
  | zero =>
    intro attempt idx hf h
    cases hgen : gen idx size with
    | ok rs1 =>
      rw [attemptLoop_ok gen mr rs rb size idx attempt rs1 hgen] at h
      exact ⟨idx, by rw [hgen, h.symm]⟩
    | error e =>
      rw [attemptLoop_raise gen mr rs rb size idx attempt e hgen (by omega)] at h
      exact absurd h (by simp)
  | succ fuel ih =>
    intro attempt idx hf h
    cases hgen : gen idx size with
    | ok rs1 =>
      rw [attemptLoop_ok gen mr rs rb size idx attempt rs1 hgen] at h
      exact ⟨idx, by rw [hgen, h.symm]⟩
    | error e =>
      by_cases hc : classifyTransient e = true ∧ attempt < mr
      · rw [attemptLoop_retry gen mr rs rb size idx attempt e hgen hc.1 hc.2] at h
        exact ih (attempt + 1) (idx + 1) (by omega) h
      · rw [attemptLoop_raise gen mr rs rb size idx attempt e hgen hc] at h
        exact absurd h (by simp)

theorem specBatchSizes_pos (batch_size : Nat) (hb : 0 < batch_size) (remaining : Nat)
    (h : 0 < remaining) :
    specBatchSizes batch_size hb remaining =
      min batch_size remaining ::
        specBatchSizes batch_size hb (remaining - min batch_size remaining) := by
  rw [specBatchSizes.eq_def]
  exact dif_pos h

theorem specBatchSizes_zero (batch_size : Nat) (hb : 0 < batch_size) :
    specBatchSizes batch_size hb 0 = [] := by
  rw [specBatchSizes.eq_def]
  exact dif_neg (by omega)

/-- The issued batch sizes partition the total: they sum to it exactly. -/
theorem specBatchSizes_sum (batch_size : Nat) (hb : 0 < batch_size) :
    ∀ remaining : Nat, (specBatchSizes batch_size hb remaining).sum = remaining := by
  intro remaining
  induction remaining using Nat.strong_induction_on with
  | _ remaining ih =>
    by_cases h : 0 < remaining
    · rw [specBatchSizes_pos batch_size hb remaining h, List.sum_cons,
        ih (remaining - min batch_size remaining) (by omega)]
      omega
    · have h0 : remaining = 0 := by omega
      rw [h0, specBatchSizes_zero]
      rfl

theorem runBatches_eq_pos {Row : Type} (gen : Nat → Nat → Except (List Char) (List Row))
    (batch_size : Nat) (hb : 0 < batch_size) (sleep_seconds : ℚ) (mr : Nat)
    (rs rb : ℚ) (remaining idx : Nat) (rows : List Row) (h : 0 < remaining) :
    runBatches gen batch_size hb sleep_seconds mr rs rb remaining idx rows =
      (match (attemptLoop gen mr rs rb (min batch_size remaining) idx 0).1 with
      | Except.error e =>
        (Except.error e, (attemptLoop gen mr rs rb (min batch_size remaining) idx 0).2.2)
      | Except.ok rs1 =>
        ((runBatches gen batch_size hb sleep_seconds mr rs rb
            (remaining - min batch_size remaining)
            (attemptLoop gen mr rs rb (min batch_size remaining) idx 0).2.1 (rows ++ rs1)).1,
         (if 0 < remaining - min batch_size remaining ∧ 0 < sleep_seconds then
            (attemptLoop gen mr rs rb (min batch_size remaining) idx 0).2.2 ++
              [Ev.pacingSleep sleep_seconds]
          else (attemptLoop gen mr rs rb (min batch_size remaining) idx 0).2.2) ++
           (runBatches gen batch_size hb sleep_seconds mr rs rb
             (remaining - min batch_size remaining)
             (attemptLoop gen mr rs rb (min batch_size remaining) idx 0).2.1
             (rows ++ rs1)).2)) := by
  rw [runBatches.eq_def]
  exact dif_pos h

theorem runBatches_eq_zero {Row : Type} (gen : Nat → Nat → Except (List Char) (List Row))
    (batch_size : Nat) (hb : 0 < batch_size) (sleep_seconds : ℚ) (mr : Nat)
    (rs rb : ℚ) (idx : Nat) (rows : List Row) :
    runBatches gen batch_size hb sleep_seconds mr rs rb 0 idx rows =
      (Except.ok rows, []) := by
  rw [runBatches.eq_def]
  exact dif_neg (by omega)

/-- With an always-succeeding collaborator that returns exactly the requested
row count, every run succeeds, accumulates one row per requested item, and
issues exactly the spec's `min(batch_size, remaining)` batch sizes. -/
theorem runBatches_all_ok {Row : Type} (gen : Nat → Nat → Except (List Char) (List Row))
    (batch_size : Nat) (hb : 0 < batch_size) (sleep_seconds : ℚ) (mr : Nat) (rs rb : ℚ)
    (hg : ∀ i n, ∃ out : List Row, gen i n = Except.ok out ∧ out.length = n) :
    ∀ remaining idx rows, ∃ out evs,
      runBatches gen batch_size hb sleep_seconds mr rs rb remaining idx rows =
        (Except.ok out, evs) ∧
      out.length = rows.length + remaining ∧
      callSizes evs = specBatchSizes batch_size hb remaining := by
  intro remaining
  induction remaining using Nat.strong_induction_on with
  | _ remaining ih =>
    intro idx rows
    by_cases h : 0 < remaining
    · obtain ⟨out1, hg1, hlen1⟩ := hg idx (min batch_size remaining)
      have hal := attemptLoop_ok gen mr rs rb (min batch_size remaining) idx 0 out1 hg1
      obtain ⟨out2, evs2, heq2, hlen2, hsz2⟩ :=
        ih (remaining - min batch_size remaining) (by omega) (idx + 1) (rows ++ out1)
      have hstep : runBatches gen batch_size hb sleep_seconds mr rs rb remaining idx rows =
          ((runBatches gen batch_size hb sleep_seconds mr rs rb
              (remaining - min batch_size remaining) (idx + 1) (rows ++ out1)).1,
           (if 0 < remaining - min batch_size remaining ∧ 0 < sleep_seconds then
              [Ev.genCall idx (min batch_size remaining), Ev.pacingSleep sleep_seconds]
            else [Ev.genCall idx (min batch_size remaining)]) ++
             (runBatches gen batch_size hb sleep_seconds mr rs rb
               (remaining - min batch_size remaining) (idx + 1) (rows ++ out1)).2) := by
        rw [runBatches_eq_pos gen batch_size hb sleep_seconds mr rs rb remaining idx rows h, hal]
        rfl
      rw [hstep, heq2]
      refine ⟨out2,
        (if 0 < remaining - min batch_size remaining ∧ 0 < sleep_seconds then
          [Ev.genCall idx (min batch_size remaining), Ev.pacingSleep sleep_seconds]
        else [Ev.genCall idx (min batch_size remaining)]) ++ evs2, rfl, ?_, ?_⟩
      · simp at hlen2
        omega
      · rw [specBatchSizes_pos batch_size hb remaining h]
        by_cases hps : 0 < remaining - min batch_size remaining ∧ 0 < sleep_seconds
        · rw [if_pos hps]
          simp [callSizes, List.filterMap_append] at *
          exact hsz2
        · rw [if_neg hps]
          simp [callSizes, List.filterMap_append] at *
          exact hsz2
    · have h0 : remaining = 0 := by omega
      subst h0
      rw [runBatches_eq_zero]
      exact ⟨rows, [], rfl, by simp, by rw [specBatchSizes_zero]; rfl⟩

/-- If any run reports success and every successful collaborator call returned
exactly the requested row count, the accumulated rows number exactly the
initial rows plus the remaining count. -/
theorem runBatches_ok_length {Row : Type} (gen : Nat → Nat → Except (List Char) (List Row))
    (batch_size : Nat) (hb : 0 < batch_size) (sleep_seconds : ℚ) (mr : Nat) (rs rb : ℚ)
    (hgw : ∀ i n out, gen i n = Except.ok out → out.length = n) :
    ∀ remaining idx rows out evs,
      runBatches gen batch_size hb sleep_seconds mr rs rb remaining idx rows =
        (Except.ok out, evs) →
      out.length = rows.length + remaining := by
  intro remaining
  induction remaining using Nat.strong_induction_on with
  | _ remaining ih =>
    intro idx rows out evs heq
    by_cases h : 0 < remaining
    · rcases hal : attemptLoop gen mr rs rb (min batch_size remaining) idx 0 with ⟨res, idx2, evs1⟩
      cases res with
      | error e =>
        have hstep : runBatches gen batch_size hb sleep_seconds mr rs rb remaining idx rows =
            (Except.error e, evs1) := by
          rw [runBatches_eq_pos gen batch_size hb sleep_seconds mr rs rb remaining idx rows h,
            hal]
        rw [hstep] at heq
        simp at heq
      | ok rs1 =>
        have hstep : runBatches gen batch_size hb sleep_seconds mr rs rb remaining idx rows =
            ((runBatches gen batch_size hb sleep_seconds mr rs rb
                (remaining - min batch_size remaining) idx2 (rows ++ rs1)).1,
             (if 0 < remaining - min batch_size remaining ∧ 0 < sleep_seconds then
                evs1 ++ [Ev.pacingSleep sleep_seconds] else evs1) ++
               (runBatches gen batch_size hb sleep_seconds mr rs rb
                 (remaining - min batch_size remaining) idx2 (rows ++ rs1)).2) := by
          rw [runBatches_eq_pos gen batch_size hb sleep_seconds mr rs rb remaining idx rows h,
            hal]
        rw [hstep] at heq
        have h1 : (runBatches gen batch_size hb sleep_seconds mr rs rb
            (remaining - min batch_size remaining) idx2 (rows ++ rs1)).1 = Except.ok out := by
          have := congrArg Prod.fst heq
          simpa using this
        have hinner : runBatches gen batch_size hb sleep_seconds mr rs rb
            (remaining - min batch_size remaining) idx2 (rows ++ rs1) =
            (Except.ok out, (runBatches gen batch_size hb sleep_seconds mr rs rb
              (remaining - min batch_size remaining) idx2 (rows ++ rs1)).2) := by
          rw [← h1]
        have hlen1 : rs1.length = min batch_size remaining := by
          have hres : (attemptLoop gen mr rs rb (min batch_size remaining) idx 0).1 =
              Except.ok rs1 := by rw [hal]
          obtain ⟨j, hj⟩ := attemptLoop_ok_inv gen mr rs rb (min batch_size remaining) rs1
            (mr + 1) 0 idx (by omega) hres
          exact hgw j (min batch_size remaining) rs1 hj
        have := ih (remaining - min batch_size remaining) (by omega) idx2 (rows ++ rs1) out _
          hinner
        simp at this
        omega
    · have h0 : remaining = 0 := by omega
      subst h0
      rw [runBatches_eq_zero] at heq
      have hro : rows = out := by
        have := congrArg Prod.fst heq
        simpa using this
      subst hro
      simp

/-- C6: batches are issued with size `min(batch_size, remaining)` and
partition `total` with no gaps or double counts; with a collaborator whose
successful calls return exactly the requested number of rows, an
all-successful run accumulates exactly `total` rows, and any run that reports
success accumulated exactly `total` rows; for `total = 20, batch_size = 7`
the issued sizes are `[7, 7, 6]`. -/
theorem pacing_partitions_total {Row : Type}
    (gen : Nat → Nat → Except (List Char) (List Row)) (total batch_size : Nat)
    (hb : 0 < batch_size) (sleep_seconds : ℚ) (mr : Nat) (rs rb : ℚ)
    (hgw : ∀ i n out, gen i n = Except.ok out → out.length = n)
    (hgs : ∀ i n, ∃ out : List Row, gen i n = Except.ok out ∧ out.length = n) :
    (∃ out evs,
      generate_testset_with_pacing gen total batch_size hb sleep_seconds mr rs rb =
        (Except.ok out, evs) ∧
      out.length = total ∧
      callSizes evs = specBatchSizes batch_size hb total) ∧
    (∀ out evs,
      generate_testset_with_pacing gen total batch_size hb sleep_seconds mr rs rb =
        (Except.ok out, evs) → out.length = total) ∧
    (specBatchSizes batch_size hb total).sum = total ∧
    specBatchSizes 7 (Nat.succ_pos 6) 20 = [7, 7, 6] := by
  refine ⟨?_, ?_, specBatchSizes_sum batch_size hb total, by simp +decide [specBatchSizes]⟩
  · obtain ⟨out, evs, heq, hlen, hsz⟩ :=
      runBatches_all_ok gen batch_size hb sleep_seconds mr rs rb hgs total 0 []
    exact ⟨out, evs, heq, by simpa using hlen, hsz⟩
  · intro out evs heq
    have := runBatches_ok_length gen batch_size hb sleep_seconds mr rs rb hgw total 0 []
      out evs heq
    simpa using this

/-- Witness for `pacing_partitions_total` with a collaborator returning
exactly the requested rows: the spec's concrete batch-size sequence. -/
theorem pacing_partitions_total_witness :
    specBatchSizes 7 (Nat.succ_pos 6) 20 = [7, 7, 6] :=
  (pacing_partitions_total (fun _ n => Except.ok (List.replicate n (0 : Nat))) 20 7
    (Nat.succ_pos 6) 0 5 0 2
    (fun _ n out hout => by rw [← Except.ok.inj hout]; simp)
    (fun _ n => ⟨List.replicate n 0, rfl, by simp⟩)).2.2.2

/-- The classification flag is set whenever the lowercased message contains
one of the source's marker substrings. -/
theorem classifyTransient_of_marker (e : List Char)
    (hm : containsSub (e.map Char.toLower) "rate limit".toList = true ∨
          containsSub (e.map Char.toLower) "429".toList = true ∨
          containsSub (e.map Char.toLower) "timeout".toList = true ∨
          containsSub (e.map Char.toLower) "connection".toList = true ∨
          containsSub (e.map Char.toLower) "temporarily unavailable".toList = true ∨
          containsSub (e.map Char.toLower) "internal server error".toList = true ∨
          containsSub (e.map Char.toLower) "service unavailable".toList = true ∨
          containsSub (e.map Char.toLower) "upstream connect error".toList = true) :
    classifyTransient e = true := by
  rw [classifyTransient]
  rcases hm with h | h | h | h | h | h | h | h <;> simp at h ⊢ <;> tauto

/-- C5 (amended): when a batch call fails with a message whose lowercase form
contains one of the source's rate-limit markers ("rate limit", "429") or
transient markers (timeout, connection, temporarily unavailable, internal
server error, service unavailable, upstream connect error) while
`attempt < max_retries`, the runner sleeps
`retry_base_delay * retry_backoff_multiplier ^ attempt`, increments the
attempt count and retries the same batch; and in the concrete scenario of a
collaborator failing twice with a "429 rate limit" message then succeeding,
with `max_retries = 5`, the run succeeds with exactly the two retry sleeps
`[15, 30]`, the second being `retry_backoff_multiplier = 2` times the first.
(The source does not treat a bare "unavailable" as a marker, so the claim's
marker list is amended to the source's.) -/
theorem pacing_retry_backoff :
    (∀ {Row : Type} (gen : Nat → Nat → Except (List Char) (List Row)) (mr : Nat)
      (rs rb : ℚ) (size idx attempt : Nat) (e : List Char),
      gen idx size = Except.error e →
      (containsSub (e.map Char.toLower) "rate limit".toList = true ∨
        containsSub (e.map Char.toLower) "429".toList = true ∨
        containsSub (e.map Char.toLower) "timeout".toList = true ∨
        containsSub (e.map Char.toLower) "connection".toList = true ∨
        containsSub (e.map Char.toLower) "temporarily unavailable".toList = true ∨
        containsSub (e.map Char.toLower) "internal server error".toList = true ∨
        containsSub (e.map Char.toLower) "service unavailable".toList = true ∨
        containsSub (e.map Char.toLower) "upstream connect error".toList = true) →
      attempt < mr →
      attemptLoop gen mr rs rb size idx attempt =
        ((attemptLoop gen mr rs rb size (idx + 1) (attempt + 1)).1,
         (attemptLoop gen mr rs rb size (idx + 1) (attempt + 1)).2.1,
         Ev.genCall idx size :: Ev.retrySleep (rs * rb ^ attempt) ::
           (attemptLoop gen mr rs rb size (idx + 1) (attempt + 1)).2.2)) ∧
    retrySleeps (generate_testset_with_pacing gen429 4 2 (Nat.succ_pos 1) 0 5 15 2).2 =
      [15, 30] ∧
    (30 : ℚ) = 2 * 15 ∧
    (generate_testset_with_pacing gen429 4 2 (Nat.succ_pos 1) 0 5 15 2).1 =
      Except.ok (List.replicate 4 (0 : Nat)) := by
  refine ⟨?_, ?_, by norm_num, ?_⟩
  · intro Row gen mr rs rb size idx attempt e hg hm hlt
    exact attemptLoop_retry gen mr rs rb size idx attempt e hg
      (classifyTransient_of_marker e hm) hlt
  · simp +decide [generate_testset_with_pacing, runBatches, attemptLoop, gen429, retrySleeps]
    norm_num
  · simp +decide [generate_testset_with_pacing, runBatches, attemptLoop, gen429]

/-- Witness for `pacing_retry_backoff` applying its retry-step clause at the
first failing call of the concrete scenario collaborator. -/
theorem pacing_retry_backoff_witness :
    attemptLoop gen429 5 15 2 2 0 0 =
      ((attemptLoop gen429 5 15 2 2 1 1).1, (attemptLoop gen429 5 15 2 2 1 1).2.1,
        Ev.genCall 0 2 :: Ev.retrySleep (15 * 2 ^ (0 : Nat)) ::
          (attemptLoop gen429 5 15 2 2 1 1).2.2) :=
  pacing_retry_backoff.1 gen429 5 15 2 2 0 0 "429 rate limit hit".toList rfl
    (Or.inl (by decide)) (by decide)

/-- Counterexample to C5 as stated: "backend unavailable" contains the
claim's marker "unavailable" and the attempt count 0 is below
`max_retries = 5`, yet the runner performs no retry sleep and re-raises at
once (the source's markers are "temporarily unavailable" and
"service unavailable", not bare "unavailable"). -/
theorem pacing_retry_backoff_cex :
    containsSub ("backend unavailable".toList.map Char.toLower)
      "unavailable".toList = true ∧
    (0 : Nat) < 5 ∧
    attemptLoop (fun _ _ => Except.error "backend unavailable".toList)
      5 15 2 2 0 0 =
      ((Except.error "backend unavailable".toList : Except (List Char) (List Nat)),
        1, [Ev.genCall 0 2]) ∧
    retrySleeps [Ev.genCall 0 2] = [] := by
  refine ⟨by decide, by decide, ?_, by decide⟩
  simp +decide [attemptLoop]

/-- C1 (amended): when prior batches succeed and a later batch fails
permanently — with a non-transient error, or with a transient error once
retries are exhausted — the failure is propagated to the caller as the raised
exception, and the rows accumulated in the prior successful batches are NOT
returned: the caller-visible outcome is only the error, which carries no
rows (the `rows` local of `generate_testset_with_pacing` is abandoned by the
`raise`). -/
theorem pacing_failure_drops_rows :
    (∀ {Row : Type} (rows1 : List Row) (msg : List Char),
      classifyTransient msg = false →
      generate_testset_with_pacing
        (fun i _ => if i = 0 then Except.ok rows1 else Except.error msg) 4 2
        (Nat.succ_pos 1) 0 5 15 2 =
        (Except.error msg, [Ev.genCall 0 2, Ev.genCall 1 2])) ∧
    (∀ {Row : Type} (rows1 : List Row) (msg : List Char),
      classifyTransient msg = true →
      generate_testset_with_pacing
        (fun i _ => if i = 0 then Except.ok rows1 else Except.error msg) 4 2
        (Nat.succ_pos 1) 0 1 15 2 =
        (Except.error msg,
          [Ev.genCall 0 2, Ev.genCall 1 2, Ev.retrySleep 15, Ev.genCall 2 2])) := by
  constructor
  · intro Row rows1 msg hcl
    simp [generate_testset_with_pacing, runBatches, attemptLoop, hcl]
  · intro Row rows1 msg hcl
    simp [generate_testset_with_pacing, runBatches, attemptLoop, hcl]

/-- Witness for `pacing_failure_drops_rows`: the non-transient scenario with
two concrete rows from the successful first batch and the message
"invalid request". -/
theorem pacing_failure_drops_rows_witness :
    classifyTransient "invalid request".toList = false ∧
    generate_testset_with_pacing
      (fun i _ => if i = 0 then Except.ok [(10 : Nat), 20]
        else Except.error "invalid request".toList) 4 2
      (Nat.succ_pos 1) 0 5 15 2 =
      (Except.error "invalid request".toList, [Ev.genCall 0 2, Ev.genCall 1 2]) :=
  ⟨by decide, pacing_failure_drops_rows.1 [(10 : Nat), 20] "invalid request".toList (by decide)⟩

/-- Counterexample to C1 as stated: the first batch succeeds with the rows
`[10, 20]`, the second batch fails permanently with "invalid request"; the
claim says those two rows are still returned to the caller, but the
caller-visible result is exactly `Except.error "invalid request"` — an
outcome carrying no rows at all — and in particular it is not a success
carrying the accumulated rows. -/
theorem pacing_failure_drops_rows_cex :
    (generate_testset_with_pacing
      (fun i _ => if i = 0 then Except.ok [(10 : Nat), 20]
        else Except.error "invalid request".toList) 4 2
      (Nat.succ_pos 1) 0 5 15 2).1 = Except.error "invalid request".toList ∧
    (generate_testset_with_pacing
      (fun i _ => if i = 0 then Except.ok [(10 : Nat), 20]
        else Except.error "invalid request".toList) 4 2
      (Nat.succ_pos 1) 0 5 15 2).1 ≠ Except.ok [(10 : Nat), 20] := by
  constructor
  · simp +decide [generate_testset_with_pacing, runBatches, attemptLoop]
  · simp +decide [generate_testset_with_pacing, runBatches, attemptLoop]

example : renderRecord ("hi".toList, [("Header_1".toList, JVal.jstr "A".toList),
    (mergedKey, JVal.jint 2)]) =
    "\x7b\"text\": \"hi\", \"metadata\": \x7b\"Header_1\": \"A\", \"merged_chunks\": 2\x7d\x7d".toList := by
  decide

example :
    load_chunks (writeRecords [("hi".toList, [("Header_1".toList, JVal.jstr "A".toList)])]) =
      some [("hi".toList, [("Header_1".toList, JVal.jstr "A".toList)])] := by decide

example :
    load_chunks (writeRecords [("hi".toList, [])]) =
      some [("hi".toList, [("chunk_index".toList, JVal.jint 0)])] := by decide

example :
    load_documents (writeRecords [("hi".toList, [])]) =
      some [("hi".toList, [])] := by decide

theorem hexVal_hexDigitChar (k : Nat) (hk : k < 16) :
    hexVal (hexDigitChar k) = some k := by
  interval_cases k <;> decide

theorem readHex4_toHex4 (n : Nat) (hn : n < 65536) (rest : List Char) :
    readHex4 (toHex4 n ++ rest) = some (n, rest) := by
  rw [toHex4]
  simp only [List.cons_append, List.nil_append, readHex4,
    hexVal_hexDigitChar (n / 4096 % 16) (by omega),
    hexVal_hexDigitChar (n / 256 % 16) (by omega),
    hexVal_hexDigitChar (n / 16 % 16) (by omega),
    hexVal_hexDigitChar (n % 16) (by omega)]
  congr 1
  congr 1
  omega

theorem char_toNat_valid (c : Char) :
    c.toNat < 55296 ∨ (57344 ≤ c.toNat ∧ c.toNat < 1114112) := by
  rcases c.valid with h | ⟨h1, h2⟩
  · left; exact h
  · right; exact ⟨h1, h2⟩

theorem char_ne_of_toNat_ne {c d : Char} (h : c.toNat ≠ d.toNat) : c ≠ d :=
  fun he => h (by rw [he])

theorem parseStrAux_quote (fuel : Nat) (t : List Char) :
    parseStrAux (fuel + 1) ('"' :: t) = some ([], t) := by
  rw [parseStrAux.eq_def]
  simp

theorem parseStrAux_raw (fuel : Nat) (c : Char) (t : List Char)
    (h1 : c ≠ '"') (h2 : c ≠ '\\') (h3 : ¬ c.toNat < 32) :
    parseStrAux (fuel + 1) (c :: t) =
      match parseStrAux fuel t with
      | some (s, r) => some (c :: s, r)
      | none => none := by
  rw [parseStrAux.eq_def]
  simp [h1, h2, h3]

theorem parseStrAux_short (fuel : Nat) (e c2 : Char) (t : List Char)
    (he : e ≠ 'u') (hs : shortUnescape e = some c2) :
    parseStrAux (fuel + 1) ('\\' :: e :: t) =
      match parseStrAux fuel t with
      | some (s, r) => some (c2 :: s, r)
      | none => none := by
  rw [parseStrAux.eq_def]
  simp +decide [he, hs]

theorem parseStrAux_uBMP (fuel : Nat) (n : Nat) (t : List Char)
    (hn : n < 65536) (hno : ¬ (55296 ≤ n ∧ n < 57344)) :
    parseStrAux (fuel + 1) ('\\' :: 'u' :: (toHex4 n ++ t)) =
      match parseStrAux fuel t with
      | some (s, r) => some (Char.ofNat n :: s, r)
      | none => none := by
  have h1 : ¬ (55296 ≤ n ∧ n < 56320) := by omega
  have h2 : ¬ (56320 ≤ n ∧ n < 57344) := by omega
  rw [parseStrAux.eq_def]
  simp +decide [readHex4_toHex4 n hn t, h1, h2]

theorem parseStrAux_uPair (fuel : Nat) (hi lo : Nat) (t : List Char)
    (hhi : 55296 ≤ hi ∧ hi < 56320) (hlo : 56320 ≤ lo ∧ lo < 57344) :
    parseStrAux (fuel + 1) ('\\' :: 'u' :: (toHex4 hi ++ ('\\' :: 'u' :: (toHex4 lo ++ t)))) =
      match parseStrAux fuel t with
      | some (s, r) => some (Char.ofNat ((hi - 55296) * 1024 + (lo - 56320) + 65536) :: s, r)
      | none => none := by
  rw [parseStrAux.eq_def]
  simp +decide [readHex4_toHex4 hi (by omega : hi < 65536) (('\\' :: 'u' :: (toHex4 lo ++ t))),
    readHex4_toHex4 lo (by omega : lo < 65536) t, eq_true hhi.1, eq_true hhi.2,
    eq_true hlo.1, eq_true hlo.2]

/-- Round trip of JSON string escaping: parsing the escaped content followed
by the closing quote recovers the original characters exactly. -/
theorem parseStrAux_escape :
    ∀ (s : List Char) (fuel : Nat) (rest : List Char), s.length < fuel →
      parseStrAux fuel (escapeStr s ++ '"' :: rest) = some (s, rest) := by
  intro s
  induction s with
  | nil =>
    intro fuel rest hf
    cases fuel with
    | zero => exact absurd hf (by omega)
    | succ f =>
      rw [show escapeStr [] = [] from rfl, List.nil_append, parseStrAux_quote]
  | cons c s' ih =>
    intro fuel rest hf
    cases fuel with
    | zero => exact absurd hf (by omega)
    | succ f =>
      have hf' : s'.length < f := by simp at hf; omega
      have hih := ih f rest hf'
      have hesc : escapeStr (c :: s') ++ '"' :: rest =
          escapeChar c ++ (escapeStr s' ++ '"' :: rest) := by
        simp [escapeStr]
      rw [hesc]
      by_cases h1 : c = '"'
      · subst h1
        rw [show escapeChar '"' = ['\\', '"'] from rfl]
        rw [show (['\\', '"'] : List Char) ++ (escapeStr s' ++ '"' :: rest) =
          '\\' :: '"' :: (escapeStr s' ++ '"' :: rest) from rfl]
        rw [parseStrAux_short f '"' '"' _ (by decide) (by decide), hih]
      · by_cases h2 : c = '\\'
        · subst h2
          rw [show escapeChar '\\' = ['\\', '\\'] from rfl]
          rw [show (['\\', '\\'] : List Char) ++ (escapeStr s' ++ '"' :: rest) =
            '\\' :: '\\' :: (escapeStr s' ++ '"' :: rest) from rfl]
          rw [parseStrAux_short f '\\' '\\' _ (by decide) (by decide), hih]
        · by_cases h3 : c = '\n'
          · subst h3
            rw [show escapeChar '\n' = ['\\', 'n'] from rfl]
            rw [show (['\\', 'n'] : List Char) ++ (escapeStr s' ++ '"' :: rest) =
              '\\' :: 'n' :: (escapeStr s' ++ '"' :: rest) from rfl]
            rw [parseStrAux_short f 'n' '\n' _ (by decide) (by decide), hih]
          · by_cases h4 : c = '\t'
            · subst h4
              rw [show escapeChar '\t' = ['\\', 't'] from rfl]
              rw [show (['\\', 't'] : List Char) ++ (escapeStr s' ++ '"' :: rest) =
                '\\' :: 't' :: (escapeStr s' ++ '"' :: rest) from rfl]
              rw [parseStrAux_short f 't' '\t' _ (by decide) (by decide), hih]
            · by_cases h5 : c = '\r'
              · subst h5
                rw [show escapeChar '\r' = ['\\', 'r'] from rfl]
                rw [show (['\\', 'r'] : List Char) ++ (escapeStr s' ++ '"' :: rest) =
                  '\\' :: 'r' :: (escapeStr s' ++ '"' :: rest) from rfl]
                rw [parseStrAux_short f 'r' '\r' _ (by decide) (by decide), hih]
              · by_cases h6 : c = '\x08'
                · subst h6
                  rw [show escapeChar '\x08' = ['\\', 'b'] from rfl]
                  rw [show (['\\', 'b'] : List Char) ++ (escapeStr s' ++ '"' :: rest) =
                    '\\' :: 'b' :: (escapeStr s' ++ '"' :: rest) from rfl]
                  rw [parseStrAux_short f 'b' '\x08' _ (by decide) (by decide), hih]
                · by_cases h7 : c = '\x0c'
                  · subst h7
                    rw [show escapeChar '\x0c' = ['\\', 'f'] from rfl]
                    rw [show (['\\', 'f'] : List Char) ++ (escapeStr s' ++ '"' :: rest) =
                      '\\' :: 'f' :: (escapeStr s' ++ '"' :: rest) from rfl]
                    rw [parseStrAux_short f 'f' '\x0c' _ (by decide) (by decide), hih]
                  · by_cases h8 : c.toNat < 32
                    · have he : escapeChar c = '\\' :: 'u' :: toHex4 c.toNat := by
                        rw [escapeChar, if_neg h1, if_neg h2, if_neg h3, if_neg h4,
                          if_neg h5, if_neg h6, if_neg h7, if_pos h8]
                      rw [he, List.cons_append, List.cons_append]
                      rw [parseStrAux_uBMP f c.toNat _ (by omega) (by omega), hih,
                        Char.ofNat_toNat]
                    · by_cases h9 : c.toNat ≤ 126
                      · have he : escapeChar c = [c] := by
                          rw [escapeChar, if_neg h1, if_neg h2, if_neg h3, if_neg h4,
                            if_neg h5, if_neg h6, if_neg h7, if_neg h8, if_pos h9]
                        rw [he, List.singleton_append]
                        rw [parseStrAux_raw f c _ h1 h2 h8, hih]
                      · by_cases h10 : c.toNat < 65536
                        · have he : escapeChar c = '\\' :: 'u' :: toHex4 c.toNat := by
                            rw [escapeChar, if_neg h1, if_neg h2, if_neg h3, if_neg h4,
                              if_neg h5, if_neg h6, if_neg h7, if_neg h8, if_neg h9,
                              if_pos h10]
                          have hval := char_toNat_valid c
                          rw [he, List.cons_append, List.cons_append]
                          rw [parseStrAux_uBMP f c.toNat _ h10 (by omega), hih,
                            Char.ofNat_toNat]
                        · have he : escapeChar c =
                              '\\' :: 'u' :: toHex4 (55296 + (c.toNat - 65536) / 1024) ++
                                '\\' :: 'u' :: toHex4 (56320 + (c.toNat - 65536) % 1024) := by
                            rw [escapeChar, if_neg h1, if_neg h2, if_neg h3, if_neg h4,
                              if_neg h5, if_neg h6, if_neg h7, if_neg h8, if_neg h9,
                              if_neg h10]
                          have hval := char_toNat_valid c
                          have hv1 : c.toNat < 1114112 := by omega
                          rw [he]
                          rw [show ('\\' :: 'u' :: toHex4 (55296 + (c.toNat - 65536) / 1024) ++
                              '\\' :: 'u' :: toHex4 (56320 + (c.toNat - 65536) % 1024)) ++
                              (escapeStr s' ++ '"' :: rest) =
                            '\\' :: 'u' :: (toHex4 (55296 + (c.toNat - 65536) / 1024) ++
                              ('\\' :: 'u' :: (toHex4 (56320 + (c.toNat - 65536) % 1024) ++
                                (escapeStr s' ++ '"' :: rest)))) by
                            simp [List.append_assoc]]
                          rw [parseStrAux_uPair f (55296 + (c.toNat - 65536) / 1024)
                            (56320 + (c.toNat - 65536) % 1024) _
                            (by omega) (by omega), hih]
                          have harith : (55296 + (c.toNat - 65536) / 1024 - 55296) * 1024 +
                              (56320 + (c.toNat - 65536) % 1024 - 56320) + 65536 = c.toNat := by
                            omega
                          rw [harith, Char.ofNat_toNat]

theorem isDigitCh_bounds (c : Char) (h : isDigitCh c = true) :
    48 ≤ c.toNat ∧ c.toNat ≤ 57 := by
  simp [isDigitCh] at h
  exact h

theorem escapeChar_length_pos (c : Char) : 1 ≤ (escapeChar c).length := by
  rw [escapeChar]
  repeat' split
  all_goals simp [toHex4]

theorem escapeStr_length_ge (s : List Char) : s.length ≤ (escapeStr s).length := by
  induction s with
  | nil => simp [escapeStr]
  | cons c s' ih =>
    have h1 := escapeChar_length_pos c
    simp [escapeStr] at ih ⊢
    omega

theorem parseJStr_render (fuel : Nat) (s : List Char) (rest : List Char)
    (hf : s.length < fuel) :
    parseJStr fuel (renderJStr s ++ rest) = some (s, rest) := by
  rw [renderJStr]
  rw [show ('"' :: escapeStr s ++ ['"']) ++ rest = '"' :: (escapeStr s ++ '"' :: rest) by
    simp]
  rw [parseJStr]
  rw [if_pos rfl]
  exact parseStrAux_escape s fuel rest hf

theorem digitChar_isDigit (k : Nat) (hk : k < 10) : isDigitCh (digitChar k) = true := by
  interval_cases k <;> decide

theorem digitChar_toNat (k : Nat) (hk : k < 10) : (digitChar k).toNat = 48 + k := by
  interval_cases k <;> decide

theorem natToCharsAux_spec :
    ∀ (fuel n : Nat), n < fuel →
      natToCharsAux fuel n ≠ [] ∧ (∀ c ∈ natToCharsAux fuel n, isDigitCh c = true) ∧
      ∀ a : Nat, (natToCharsAux fuel n).foldl (fun a c => a * 10 + (c.toNat - 48)) a =
        a * 10 ^ (natToCharsAux fuel n).length + n := by
  intro fuel
  induction fuel with
  | zero => intro n h; exact absurd h (by omega)
  | succ f ihf =>
    intro n h
    rw [natToCharsAux]
    by_cases h10 : n < 10
    · rw [if_pos h10]
      refine ⟨by simp, ?_, ?_⟩
      · intro c hc
        simp at hc
        subst hc
        exact digitChar_isDigit n h10
      · intro a
        simp [digitChar_toNat n h10]
    · rw [if_neg h10]
      have hrec := ihf (n / 10) (by omega)
      refine ⟨by simp, ?_, ?_⟩
      · intro c hc
        rcases List.mem_append.mp hc with hc | hc
        · exact hrec.2.1 c hc
        · simp at hc
          subst hc
          exact digitChar_isDigit (n % 10) (by omega)
      · intro a
        rw [List.foldl_append, hrec.2.2 a]
        simp [digitChar_toNat (n % 10) (by omega), List.length_append]
        calc (a * 10 ^ (natToCharsAux f (n / 10)).length + n / 10) * 10 + (n % 10)
            = a * (10 ^ (natToCharsAux f (n / 10)).length * 10) +
              (n / 10 * 10 + n % 10) := by ring
          _ = a * 10 ^ ((natToCharsAux f (n / 10)).length + 1) + n := by
              have hdm : n / 10 * 10 + n % 10 = n := by omega
              rw [hdm, pow_succ]

theorem takeWhile_append_all {p : Char → Bool} (l r : List Char)
    (hl : ∀ c ∈ l, p c = true) (hr : ∀ c ∈ r.head?, p c = false) :
    (l ++ r).takeWhile p = l ∧ (l ++ r).dropWhile p = r := by
  induction l with
  | nil =>
    simp only [List.nil_append]
    cases r with
    | nil => simp
    | cons c r' =>
      have hc := hr c (by simp)
      simp [List.takeWhile_cons, List.dropWhile_cons, hc]
  | cons c l' ih =>
    have hc := hl c (List.mem_cons_self c l')
    have hih := ih fun d hd => hl d (List.mem_cons_of_mem c hd)
    simp [List.takeWhile_cons, List.dropWhile_cons, hc, hih.1, hih.2]

theorem parseNat_natToChars (n : Nat) (rest : List Char)
    (hd : ∀ c ∈ rest.head?, isDigitCh c = false) :
    parseNat (natToChars n ++ rest) = some (n, rest) := by
  have hs := natToCharsAux_spec (n + 1) n (by omega)
  have hs1 : natToChars n ≠ [] := hs.1
  have hs2 : ∀ c ∈ natToChars n, isDigitCh c = true := hs.2.1
  have hs3 : (natToChars n).foldl (fun a c => a * 10 + (c.toNat - 48)) 0 =
      0 * 10 ^ (natToChars n).length + n := hs.2.2 0
  have hsplit := takeWhile_append_all (natToChars n) rest hs2 hd
  rw [parseNat]
  simp only [hsplit.1, hsplit.2]
  rw [if_neg hs1, hs3]
  simp

theorem parseJVal_render (fuel : Nat) (v : JVal) (rest : List Char)
    (hd : ∀ c ∈ rest.head?, isDigitCh c = false)
    (hf : (renderJVal v).length ≤ fuel) :
    parseJVal fuel (renderJVal v ++ rest) = some (v, rest) := by
  cases v with
  | jstr s =>
    rw [renderJVal, renderJStr]
    rw [show ('"' :: escapeStr s ++ ['"']) ++ rest = '"' :: (escapeStr s ++ '"' :: rest) by
      simp]
    rw [parseJVal]
    rw [if_pos rfl]
    have hlen : s.length < fuel := by
      have h1 := escapeStr_length_ge s
      simp [renderJVal, renderJStr] at hf
      omega
    rw [parseStrAux_escape s fuel rest hlen]
  | jint n =>
    rw [renderJVal, natToChars]
    have hs := natToCharsAux_spec (n + 1) n (by omega)
    obtain ⟨d, ds, hds⟩ : ∃ d ds, natToCharsAux (n + 1) n = d :: ds := by
      cases hnc : natToCharsAux (n + 1) n with
      | nil => exact absurd hnc hs.1
      | cons d ds => exact ⟨d, ds, rfl⟩
    have hd1 : isDigitCh d = true := hs.2.1 d (by rw [hds]; exact List.mem_cons_self d ds)
    have hne : d ≠ '"' := by
      have := isDigitCh_bounds d hd1
      exact char_ne_of_toNat_ne (by rw [show ('"').toNat = 34 from rfl]; omega)
    rw [hds, List.cons_append, parseJVal, if_neg hne, if_pos hd1,
      ← List.cons_append, ← hds]
    rw [show natToCharsAux (n + 1) n = natToChars n from rfl,
      parseNat_natToChars n rest hd]

theorem skipWs_of_head (c : Char) (t : List Char) (h : jsonWs c = false) :
    skipWs (c :: t) = c :: t := by
  simp [skipWs, List.dropWhile_cons, h]

theorem skipWs_space (t : List Char) : skipWs (' ' :: t) = skipWs t := by
  simp +decide [skipWs, List.dropWhile_cons]

theorem jsonWs_false_of_digit (c : Char) (h : isDigitCh c = true) : jsonWs c = false := by
  have hb := isDigitCh_bounds c h
  have h1 : c ≠ ' ' := char_ne_of_toNat_ne (by rw [show (' ').toNat = 32 from rfl]; omega)
  have h2 : c ≠ '\t' := char_ne_of_toNat_ne (by rw [show ('\t').toNat = 9 from rfl]; omega)
  have h3 : c ≠ '\n' := char_ne_of_toNat_ne (by rw [show ('\n').toNat = 10 from rfl]; omega)
  have h4 : c ≠ '\r' := char_ne_of_toNat_ne (by rw [show ('\r').toNat = 13 from rfl]; omega)
  simp [jsonWs, h1, h2, h3, h4]

theorem skipWs_renderJVal (v : JVal) (x : List Char) :
    skipWs (renderJVal v ++ x) = renderJVal v ++ x := by
  cases v with
  | jstr s =>
    rw [renderJVal, renderJStr]
    rw [show ('"' :: escapeStr s ++ ['"']) ++ x = '"' :: ((escapeStr s ++ ['"']) ++ x) by
      simp]
    rw [skipWs_of_head '"' _ (by decide)]
  | jint n =>
    rw [renderJVal, natToChars]
    have hs := natToCharsAux_spec (n + 1) n (by omega)
    obtain ⟨d, ds, hds⟩ : ∃ d ds, natToCharsAux (n + 1) n = d :: ds := by
      cases hnc : natToCharsAux (n + 1) n with
      | nil => exact absurd hnc hs.1
      | cons d ds => exact ⟨d, ds, rfl⟩
    have hd1 : isDigitCh d = true := hs.2.1 d (by rw [hds]; exact List.mem_cons_self d ds)
    rw [hds, List.cons_append, skipWs_of_head d _ (jsonWs_false_of_digit d hd1)]

theorem renderJVal_length_pos (v : JVal) : 1 ≤ (renderJVal v).length := by
  cases v with
  | jstr s => simp [renderJVal, renderJStr]
  | jint n =>
    have hs := natToCharsAux_spec (n + 1) n (by omega)
    have hne : natToChars n ≠ [] := hs.1
    rw [renderJVal]
    cases hnc : natToChars n with
    | nil => exact absurd hnc hne
    | cons d ds => simp [hnc]

theorem renderPair_length_ge (kv : List Char × JVal) : 5 ≤ (renderPair kv).length := by
  rcases kv with ⟨k, v⟩
  have h1 := renderJVal_length_pos v
  simp [renderPair, renderJStr]
  omega

theorem parseMetaPairs_step (f : Nat) (k : List Char) (v : JVal) (after : List Char)
    (hk : k.length < f + 1)
    (hv : (renderJVal v).length ≤ f + 1)
    (hafter : ∀ c ∈ after.head?, isDigitCh c = false) :
    parseMetaPairs (f + 1) (renderJStr k ++ ':' :: ' ' :: (renderJVal v ++ after)) =
      (match skipWs after with
       | [] => none
       | c2 :: r4 =>
         if c2 = ',' then
           match parseMetaPairs f (skipWs r4) with
           | some (m, r5) => some (((k, v) :: m : Meta), r5)
           | none => none
         else if c2 = '\x7d' then some (([(k, v)] : Meta), r4)
         else none) := by
  simp only [parseMetaPairs,
    parseJStr_render (f + 1) k (':' :: ' ' :: (renderJVal v ++ after)) hk,
    skipWs_of_head ':' (' ' :: (renderJVal v ++ after)) (by decide),
    skipWs_space (renderJVal v ++ after), skipWs_renderJVal v after,
    parseJVal_render (f + 1) v after hafter hv, if_true]

theorem skipWs_joinPairs (m : Meta) (x : List Char) (hm : m ≠ []) :
    skipWs (joinCommaSpace (m.map renderPair) ++ x) =
      joinCommaSpace (m.map renderPair) ++ x := by
  cases m with
  | nil => exact absurd rfl hm
  | cons p ps =>
    rcases p with ⟨pk, pv⟩
    cases ps with
    | nil =>
      rw [show joinCommaSpace ([(pk, pv)].map renderPair) ++ x
          = '"' :: (escapeStr pk ++ '"' :: ':' :: ' ' :: (renderJVal pv ++ x)) by
        simp [joinCommaSpace, renderPair, renderJStr]]
      exact skipWs_of_head _ _ (by decide)
    | cons q qs =>
      rw [show joinCommaSpace (((pk, pv) :: q :: qs).map renderPair) ++ x
          = '"' :: (escapeStr pk ++ '"' :: ':' :: ' ' :: (renderJVal pv ++
              ',' :: ' ' :: (joinCommaSpace ((q :: qs).map renderPair) ++ x))) by
        simp [joinCommaSpace, renderPair, renderJStr]]
      exact skipWs_of_head _ _ (by decide)

theorem parseMetaPairs_render (m : Meta) :
    ∀ (fuel : Nat) (rest : List Char), m ≠ [] →
      (joinCommaSpace (m.map renderPair) ++ '\x7d' :: rest).length < fuel →
      parseMetaPairs fuel (joinCommaSpace (m.map renderPair) ++ '\x7d' :: rest) =
        some (m, rest) := by
  induction m with
  | nil => intro fuel rest hne; exact absurd rfl hne
  | cons kv m2 ih =>
    intro fuel rest _ hlen
    rcases kv with ⟨k, v⟩
    cases fuel with
    | zero => exact absurd hlen (by omega)
    | succ f =>
      have hRJ : (renderJStr k).length = (escapeStr k).length + 2 := by
        simp [renderJStr]
      have hesc := escapeStr_length_ge k
      cases m2 with
      | nil =>
        have hshape : joinCommaSpace ([((k, v) : List Char × JVal)].map renderPair) ++
            '\x7d' :: rest
            = renderJStr k ++ ':' :: ' ' :: (renderJVal v ++ '\x7d' :: rest) := by
          simp [joinCommaSpace, renderPair]
        rw [hshape]
        rw [hshape] at hlen
        simp only [List.length_append, List.length_cons, hRJ] at hlen
        rw [parseMetaPairs_step f k v ('\x7d' :: rest) (by omega) (by omega)
          (by intro c hc; simp at hc; subst hc; decide)]
        rw [skipWs_of_head '\x7d' rest (by decide)]
        simp +decide
      | cons p ps =>
        have hshape : joinCommaSpace ((((k, v) : List Char × JVal) :: p :: ps).map
            renderPair) ++ '\x7d' :: rest
            = renderJStr k ++ ':' :: ' ' :: (renderJVal v ++
                ',' :: ' ' :: (joinCommaSpace ((p :: ps).map renderPair) ++
                  '\x7d' :: rest)) := by
          simp [joinCommaSpace, renderPair]
        rw [hshape]
        rw [hshape] at hlen
        simp only [List.length_append, List.length_cons, hRJ] at hlen
        have hlen2 : (joinCommaSpace ((p :: ps).map renderPair) ++ '\x7d' :: rest).length
            < f := by
          simp only [List.length_append, List.length_cons]
          omega
        rw [parseMetaPairs_step f k v _ (by omega) (by omega)
          (by intro c hc; simp at hc; subst hc; decide)]
        rw [skipWs_of_head ','
          (' ' :: (joinCommaSpace ((p :: ps).map renderPair) ++ '\x7d' :: rest))
          (by decide)]
        simp only [skipWs_space, skipWs_joinPairs (p :: ps) ('\x7d' :: rest) (by simp),
          ih f rest (by simp) hlen2]
        simp +decide

theorem joinPairs_shape (m : Meta) (x : List Char) (hm : m ≠ []) :
    ∃ T, joinCommaSpace (m.map renderPair) ++ x = '"' :: T := by
  cases m with
  | nil => exact absurd rfl hm
  | cons p ps =>
    rcases p with ⟨pk, pv⟩
    cases ps with
    | nil =>
      exact ⟨escapeStr pk ++ '"' :: ':' :: ' ' :: (renderJVal pv ++ x),
        by simp [joinCommaSpace, renderPair, renderJStr]⟩
    | cons q qs =>
      exact ⟨escapeStr pk ++ '"' :: ':' :: ' ' :: (renderJVal pv ++
          ',' :: ' ' :: (joinCommaSpace ((q :: qs).map renderPair) ++ x)),
        by simp [joinCommaSpace, renderPair, renderJStr]⟩

theorem parseMetaObj_render (fuel : Nat) (m : Meta) (rest : List Char)
    (hf : (renderMeta m ++ rest).length < fuel) :
    parseMetaObj fuel (renderMeta m ++ rest) = some (m, rest) := by
  cases m with
  | nil =>
    rw [show renderMeta [] ++ rest = '\x7b' :: '\x7d' :: rest by simp [renderMeta]]
    simp only [parseMetaObj, skipWs_of_head '\x7d' rest (by decide)]
    simp +decide
  | cons p ps =>
    obtain ⟨T, hT⟩ := joinPairs_shape (p :: ps) ('\x7d' :: rest) (by simp)
    have hJ : renderMeta (p :: ps) ++ rest
        = '\x7b' :: (joinCommaSpace ((p :: ps).map renderPair) ++ '\x7d' :: rest) := by
      simp [renderMeta]
    rw [hJ] at hf ⊢
    simp only [parseMetaObj, if_true]
    rw [skipWs_joinPairs (p :: ps) ('\x7d' :: rest) (by simp)]
    rw [hT]
    show (if ('"' : Char) = '\x7d' then some (([] : Meta), T)
      else parseMetaPairs fuel (skipWs ('"' :: T))) = some (p :: ps, rest)
    rw [if_neg (by decide)]
    rw [skipWs_of_head '"' T (by decide), ← hT]
    refine parseMetaPairs_render (p :: ps) fuel rest (by simp) ?_
    simp only [List.length_cons] at hf
    omega

theorem renderJStr_cons (s x : List Char) :
    renderJStr s ++ x = '"' :: (escapeStr s ++ '"' :: x) := by
  simp [renderJStr]

theorem skipWs_renderJStr (s x : List Char) :
    skipWs (renderJStr s ++ x) = renderJStr s ++ x := by
  rw [renderJStr_cons]
  exact skipWs_of_head _ _ (by decide)

theorem skipWs_renderMeta (m : Meta) (x : List Char) :
    skipWs (renderMeta m ++ x) = renderMeta m ++ x := by
  cases m with
  | nil =>
    rw [show renderMeta [] ++ x = '\x7b' :: '\x7d' :: x by simp [renderMeta]]
    exact skipWs_of_head _ _ (by decide)
  | cons p ps =>
    rw [show renderMeta (p :: ps) ++ x
        = '\x7b' :: (joinCommaSpace ((p :: ps).map renderPair) ++ '\x7d' :: x) by
      simp [renderMeta]]
    exact skipWs_of_head _ _ (by decide)

theorem parseTopVal_str (fuel : Nat) (t rest : List Char) (hf : t.length < fuel) :
    parseTopVal fuel (renderJStr t ++ rest) = some (TopVal.vstr t, rest) := by
  rw [renderJStr_cons]
  simp only [parseTopVal, if_true, parseStrAux_escape t fuel rest hf]

theorem parseTopVal_obj (fuel : Nat) (m : Meta) (rest : List Char)
    (hf : (renderMeta m ++ rest).length < fuel) :
    parseTopVal fuel (renderMeta m ++ rest) = some (TopVal.vobj m, rest) := by
  obtain ⟨T, hT⟩ : ∃ T, renderMeta m ++ rest = '\x7b' :: T := by
    cases m with
    | nil => exact ⟨'\x7d' :: rest, by simp [renderMeta]⟩
    | cons p ps =>
      exact ⟨joinCommaSpace ((p :: ps).map renderPair) ++ '\x7d' :: rest,
        by simp [renderMeta]⟩
  have hobj : parseMetaObj fuel ('\x7b' :: T) = some (m, rest) := by
    rw [← hT]; exact parseMetaObj_render fuel m rest hf
  rw [hT]
  simp only [parseTopVal, hobj]
  simp +decide

theorem parseTopPairs_step_str (f : Nat) (k t after : List Char)
    (hk : k.length < f + 1) (ht : t.length < f + 1) :
    parseTopPairs (f + 1) (renderJStr k ++ ':' :: ' ' :: (renderJStr t ++ after)) =
      (match skipWs after with
       | [] => none
       | c2 :: r4 =>
         if c2 = ',' then
           match parseTopPairs f (skipWs r4) with
           | some (m, r5) => some ((k, TopVal.vstr t) :: m, r5)
           | none => none
         else if c2 = '\x7d' then some ([(k, TopVal.vstr t)], r4)
         else none) := by
  simp only [parseTopPairs,
    parseJStr_render (f + 1) k (':' :: ' ' :: (renderJStr t ++ after)) hk,
    skipWs_of_head ':' (' ' :: (renderJStr t ++ after)) (by decide),
    skipWs_space (renderJStr t ++ after), skipWs_renderJStr t after,
    parseTopVal_str (f + 1) t after ht, if_true]

theorem parseTopPairs_step_obj (f : Nat) (k : List Char) (m : Meta) (after : List Char)
    (hk : k.length < f + 1) (hm : (renderMeta m ++ after).length < f + 1) :
    parseTopPairs (f + 1) (renderJStr k ++ ':' :: ' ' :: (renderMeta m ++ after)) =
      (match skipWs after with
       | [] => none
       | c2 :: r4 =>
         if c2 = ',' then
           match parseTopPairs f (skipWs r4) with
           | some (ps, r5) => some ((k, TopVal.vobj m) :: ps, r5)
           | none => none
         else if c2 = '\x7d' then some ([(k, TopVal.vobj m)], r4)
         else none) := by
  simp only [parseTopPairs,
    parseJStr_render (f + 1) k (':' :: ' ' :: (renderMeta m ++ after)) hk,
    skipWs_of_head ':' (' ' :: (renderMeta m ++ after)) (by decide),
    skipWs_space (renderMeta m ++ after), skipWs_renderMeta m after,
    parseTopVal_obj (f + 1) m after hm, if_true]

theorem parseTopPairs_record (f : Nat) (t : List Char) (m : Meta) (rest : List Char)
    (htext : ("text".toList : List Char).length < f + 2)
    (ht : t.length < f + 2)
    (hkey : ("metadata".toList : List Char).length < f + 1)
    (hm : (renderMeta m ++ '\x7d' :: rest).length < f + 1) :
    parseTopPairs (f + 2) (renderJStr ("text".toList) ++ ':' :: ' ' ::
        (renderJStr t ++ ',' :: ' ' :: (renderJStr ("metadata".toList) ++ ':' :: ' ' ::
          (renderMeta m ++ '\x7d' :: rest)))) =
      some ([(("text".toList : List Char), TopVal.vstr t),
             (("metadata".toList : List Char), TopVal.vobj m)], rest) := by
  rw [parseTopPairs_step_str (f + 1) ("text".toList) t
    (',' :: ' ' :: (renderJStr ("metadata".toList) ++ ':' :: ' ' ::
      (renderMeta m ++ '\x7d' :: rest))) htext ht]
  rw [skipWs_of_head ','
    (' ' :: (renderJStr ("metadata".toList) ++ ':' :: ' ' ::
      (renderMeta m ++ '\x7d' :: rest))) (by decide)]
  simp only [skipWs_space,
    skipWs_renderJStr ("metadata".toList)
      (':' :: ' ' :: (renderMeta m ++ '\x7d' :: rest)),
    parseTopPairs_step_obj f ("metadata".toList) m ('\x7d' :: rest) hkey hm,
    skipWs_of_head '\x7d' rest (by decide)]
  simp +decide

theorem parseTopPairs_record_fuel (fuel : Nat) (t : List Char) (m : Meta)
    (rest : List Char)
    (hf : (renderJStr ("text".toList) ++ ':' :: ' ' :: (renderJStr t ++ ',' :: ' ' ::
      (renderJStr ("metadata".toList) ++ ':' :: ' ' ::
        (renderMeta m ++ '\x7d' :: rest)))).length + 1 ≤ fuel) :
    parseTopPairs fuel (renderJStr ("text".toList) ++ ':' :: ' ' ::
        (renderJStr t ++ ',' :: ' ' :: (renderJStr ("metadata".toList) ++ ':' :: ' ' ::
          (renderMeta m ++ '\x7d' :: rest)))) =
      some ([(("text".toList : List Char), TopVal.vstr t),
             (("metadata".toList : List Char), TopVal.vobj m)], rest) := by
  have h6 : (renderJStr ("text".toList)).length = 6 := by decide
  have h10 : (renderJStr ("metadata".toList)).length = 10 := by decide
  have htx4 : ("text".toList : List Char).length = 4 := by decide
  have hmd8 : ("metadata".toList : List Char).length = 8 := by decide
  have hjt : (renderJStr t).length = (escapeStr t).length + 2 := by simp [renderJStr]
  have hesc := escapeStr_length_ge t
  simp only [List.length_append, List.length_cons, h6, h10, hjt] at hf
  obtain ⟨f, rfl⟩ : ∃ f, fuel = f + 2 := ⟨fuel - 2, by omega⟩
  refine parseTopPairs_record f t m rest ?_ ?_ ?_ ?_
  · rw [htx4]; omega
  · omega
  · rw [hmd8]; omega
  · simp only [List.length_append, List.length_cons]
    omega

theorem parseRecordLine_render (t : List Char) (m : Meta) :
    parseRecordLine (renderRecord (t, m)) =
      some [(("text".toList : List Char), TopVal.vstr t),
            (("metadata".toList : List Char), TopVal.vobj m)] := by
  have hsh : renderRecord (t, m)
      = '\x7b' :: (renderJStr ("text".toList) ++ ':' :: ' ' ::
          (renderJStr t ++ ',' :: ' ' :: (renderJStr ("metadata".toList) ++ ':' :: ' ' ::
            (renderMeta m ++ '\x7d' :: ([] : List Char))))) := by
    simp [renderRecord]
  have hne : ((('"' : Char) = '\x7d')) = False := by decide
  rw [hsh]
  simp only [parseRecordLine,
    skipWs_of_head '\x7b'
      (renderJStr ("text".toList) ++ ':' :: ' ' ::
        (renderJStr t ++ ',' :: ' ' :: (renderJStr ("metadata".toList) ++ ':' :: ' ' ::
          (renderMeta m ++ '\x7d' :: ([] : List Char))))) (by decide),
    if_true,
    skipWs_renderJStr ("text".toList)
      (':' :: ' ' :: (renderJStr t ++ ',' :: ' ' :: (renderJStr ("metadata".toList) ++
        ':' :: ' ' :: (renderMeta m ++ '\x7d' :: ([] : List Char)))))]
  rw [renderJStr_cons ("text".toList)
    (':' :: ' ' :: (renderJStr t ++ ',' :: ' ' :: (renderJStr ("metadata".toList) ++
      ':' :: ' ' :: (renderMeta m ++ '\x7d' :: ([] : List Char)))))]
  have hrec : parseTopPairs (('\x7b' :: ('"' :: (escapeStr ("text".toList) ++ '"' ::
      ':' :: ' ' :: (renderJStr t ++ ',' :: ' ' :: (renderJStr ("metadata".toList) ++
        ':' :: ' ' :: (renderMeta m ++ '\x7d' :: ([] : List Char))))))).length + 1)
      ('"' :: (escapeStr ("text".toList) ++ '"' ::
        ':' :: ' ' :: (renderJStr t ++ ',' :: ' ' :: (renderJStr ("metadata".toList) ++
          ':' :: ' ' :: (renderMeta m ++ '\x7d' :: ([] : List Char)))))) =
      some ([(("text".toList : List Char), TopVal.vstr t),
             (("metadata".toList : List Char), TopVal.vobj m)], ([] : List Char)) := by
    rw [← renderJStr_cons]
    refine parseTopPairs_record_fuel _ t m [] ?_
    simp
  simp only [hrec, hne, ite_false,
    show ((([] : List Char) = [])) = True by simp, if_true, skipWs,
    List.dropWhile_nil]

theorem hexDigitChar_ne_nl (k : Nat) : hexDigitChar k ≠ '\n' :=
  match k with
  | 0 => by decide
  | 1 => by decide
  | 2 => by decide
  | 3 => by decide
  | 4 => by decide
  | 5 => by decide
  | 6 => by decide
  | 7 => by decide
  | 8 => by decide
  | 9 => by decide
  | 10 => by decide
  | 11 => by decide
  | 12 => by decide
  | 13 => by decide
  | 14 => by decide
  | n + 15 => by
    have h : hexDigitChar (n + 15) = 'f' := rfl
    rw [h]; decide

theorem toHex4_no_nl (n : Nat) : '\n' ∉ toHex4 n := by
  rw [toHex4]
  intro hm
  rcases List.mem_cons.mp hm with h | hm
  · exact hexDigitChar_ne_nl _ h.symm
  rcases List.mem_cons.mp hm with h | hm
  · exact hexDigitChar_ne_nl _ h.symm
  rcases List.mem_cons.mp hm with h | hm
  · exact hexDigitChar_ne_nl _ h.symm
  rcases List.mem_cons.mp hm with h | hm
  · exact hexDigitChar_ne_nl _ h.symm
  · exact List.not_mem_nil _ hm

theorem uEscape_no_nl (n : Nat) : '\n' ∉ '\\' :: 'u' :: toHex4 n := by
  intro hm
  rcases List.mem_cons.mp hm with h | hm
  · exact absurd h (by decide)
  rcases List.mem_cons.mp hm with h | hm
  · exact absurd h (by decide)
  · exact toHex4_no_nl _ hm

theorem escapeChar_no_nl (c : Char) : '\n' ∉ escapeChar c := by
  rw [escapeChar]
  by_cases h1 : c = '"'
  · simp only [if_pos h1]; decide
  simp only [if_neg h1]
  by_cases h2 : c = '\\'
  · simp only [if_pos h2]; decide
  simp only [if_neg h2]
  by_cases h3 : c = '\n'
  · simp only [if_pos h3]; decide
  simp only [if_neg h3]
  by_cases h4 : c = '\t'
  · simp only [if_pos h4]; decide
  simp only [if_neg h4]
  by_cases h5 : c = '\r'
  · simp only [if_pos h5]; decide
  simp only [if_neg h5]
  by_cases h6 : c = '\x08'
  · simp only [if_pos h6]; decide
  simp only [if_neg h6]
  by_cases h7 : c = '\x0c'
  · simp only [if_pos h7]; decide
  simp only [if_neg h7]
  by_cases h8 : c.toNat < 32
  · simp only [if_pos h8]; exact uEscape_no_nl _
  simp only [if_neg h8]
  by_cases h9 : c.toNat ≤ 126
  · simp only [if_pos h9]
    intro hm
    rcases List.mem_cons.mp hm with h | hm
    · exact h3 h.symm
    · exact List.not_mem_nil _ hm
  simp only [if_neg h9]
  by_cases h10 : c.toNat < 65536
  · simp only [if_pos h10]; exact uEscape_no_nl _
  simp only [if_neg h10]
  intro hm
  rw [List.mem_append] at hm
  rcases hm with hm | hm
  · exact uEscape_no_nl _ hm
  · exact uEscape_no_nl _ hm

theorem escapeStr_no_nl (s : List Char) : '\n' ∉ escapeStr s := by
  rw [escapeStr]
  intro hm
  rw [List.mem_flatten] at hm
  obtain ⟨l, hl, hml⟩ := hm
  rw [List.mem_map] at hl
  obtain ⟨c, _, rfl⟩ := hl
  exact escapeChar_no_nl c hml

theorem renderJStr_no_nl (s : List Char) : '\n' ∉ renderJStr s := by
  rw [renderJStr]
  intro hm
  rcases List.mem_cons.mp hm with h | hm
  · exact absurd h (by decide)
  rw [List.append_eq, List.mem_append] at hm
  rcases hm with hm | hm
  · exact escapeStr_no_nl s hm
  · rcases List.mem_cons.mp hm with h | hm
    · exact absurd h (by decide)
    · exact List.not_mem_nil _ hm

theorem digitChar_ne_nl (k : Nat) : digitChar k ≠ '\n' :=
  match k with
  | 0 => by decide
  | 1 => by decide
  | 2 => by decide
  | 3 => by decide
  | 4 => by decide
  | 5 => by decide
  | 6 => by decide
  | 7 => by decide
  | 8 => by decide
  | n + 9 => by
    have h : digitChar (n + 9) = '9' := rfl
    rw [h]; decide

theorem natToCharsAux_no_nl (fuel : Nat) : ∀ n, '\n' ∉ natToCharsAux fuel n := by
  induction fuel with
  | zero => intro n; rw [natToCharsAux]; exact List.not_mem_nil _
  | succ f ih =>
    intro n
    rw [natToCharsAux]
    by_cases h : n < 10
    · rw [if_pos h]
      intro hm
      rcases List.mem_cons.mp hm with h2 | hm
      · exact digitChar_ne_nl _ h2.symm
      · exact List.not_mem_nil _ hm
    · rw [if_neg h]
      intro hm
      rw [List.mem_append] at hm
      rcases hm with hm | hm
      · exact ih _ hm
      · rcases List.mem_cons.mp hm with h2 | hm
        · exact digitChar_ne_nl _ h2.symm
        · exact List.not_mem_nil _ hm

theorem renderJVal_no_nl (v : JVal) : '\n' ∉ renderJVal v := by
  cases v with
  | jstr s => exact renderJStr_no_nl s
  | jint n => exact natToCharsAux_no_nl (n + 1) n

theorem renderPair_no_nl (kv : List Char × JVal) : '\n' ∉ renderPair kv := by
  rw [renderPair]
  intro hm
  rw [List.mem_append] at hm
  rcases hm with hm | hm
  · exact renderJStr_no_nl _ hm
  rcases List.mem_cons.mp hm with h | hm
  · exact absurd h (by decide)
  rcases List.mem_cons.mp hm with h | hm
  · exact absurd h (by decide)
  · exact renderJVal_no_nl _ hm

theorem joinCommaSpace_no_nl (ls : List (List Char))
    (h : ∀ l ∈ ls, '\n' ∉ l) : '\n' ∉ joinCommaSpace ls := by
  induction ls with
  | nil => rw [joinCommaSpace]; exact List.not_mem_nil _
  | cons x xs ih =>
    cases xs with
    | nil => rw [joinCommaSpace]; exact h x (by simp)
    | cons y ys =>
      rw [show joinCommaSpace (x :: y :: ys) = x ++ ',' :: ' ' :: joinCommaSpace (y :: ys)
        by simp [joinCommaSpace]]
      intro hm
      rw [List.mem_append] at hm
      rcases hm with hm | hm
      · exact h x (by simp) hm
      rcases List.mem_cons.mp hm with h2 | hm
      · exact absurd h2 (by decide)
      rcases List.mem_cons.mp hm with h2 | hm
      · exact absurd h2 (by decide)
      · exact ih (fun l hl => h l (List.mem_cons_of_mem x hl)) hm

theorem renderMeta_no_nl (m : Meta) : '\n' ∉ renderMeta m := by
  cases m with
  | nil => rw [renderMeta]; decide
  | cons p ps =>
    rw [show renderMeta (p :: ps)
        = '\x7b' :: (joinCommaSpace ((p :: ps).map renderPair) ++ ['\x7d'])
      by simp [renderMeta]]
    intro hm
    rcases List.mem_cons.mp hm with h | hm
    · exact absurd h (by decide)
    rw [List.mem_append] at hm
    rcases hm with hm | hm
    · exact joinCommaSpace_no_nl _ (by
        intro l hl
        rw [List.mem_map] at hl
        obtain ⟨kv, _, rfl⟩ := hl
        exact renderPair_no_nl kv) hm
    · rcases List.mem_cons.mp hm with h | hm
      · exact absurd h (by decide)
      · exact List.not_mem_nil _ hm

theorem renderRecord_no_nl (r : List Char × Meta) : '\n' ∉ renderRecord r := by
  obtain ⟨t, m⟩ := r
  have hsh : renderRecord (t, m)
      = '\x7b' :: (renderJStr ("text".toList) ++ ':' :: ' ' ::
          (renderJStr t ++ ',' :: ' ' :: (renderJStr ("metadata".toList) ++ ':' :: ' ' ::
            (renderMeta m ++ '\x7d' :: ([] : List Char))))) := by
    simp [renderRecord]
  rw [hsh]
  intro hm
  rcases List.mem_cons.mp hm with h | hm
  · exact absurd h (by decide)
  rw [List.mem_append] at hm
  rcases hm with hm | hm
  · exact renderJStr_no_nl _ hm
  rcases List.mem_cons.mp hm with h | hm
  · exact absurd h (by decide)
  rcases List.mem_cons.mp hm with h | hm
  · exact absurd h (by decide)
  rw [List.mem_append] at hm
  rcases hm with hm | hm
  · exact renderJStr_no_nl _ hm
  rcases List.mem_cons.mp hm with h | hm
  · exact absurd h (by decide)
  rcases List.mem_cons.mp hm with h | hm
  · exact absurd h (by decide)
  rw [List.mem_append] at hm
  rcases hm with hm | hm
  · exact renderJStr_no_nl _ hm
  rcases List.mem_cons.mp hm with h | hm
  · exact absurd h (by decide)
  rcases List.mem_cons.mp hm with h | hm
  · exact absurd h (by decide)
  rw [List.mem_append] at hm
  rcases hm with hm | hm
  · exact renderMeta_no_nl _ hm
  rcases List.mem_cons.mp hm with h | hm
  · exact absurd h (by decide)
  · exact List.not_mem_nil _ hm

theorem renderRecord_ne_nil (r : List Char × Meta) : renderRecord r ≠ [] := by
  obtain ⟨t, m⟩ := r
  rw [show renderRecord (t, m)
      = '\x7b' :: (renderJStr ("text".toList) ++ ':' :: ' ' ::
          (renderJStr t ++ ',' :: ' ' :: (renderJStr ("metadata".toList) ++ ':' :: ' ' ::
            (renderMeta m ++ '\x7d' :: ([] : List Char)))))
    by simp [renderRecord]]
  simp

theorem dropWhile_head_id (l : List Char) (h : ∀ c ∈ l.head?, pySpace c = false) :
    l.dropWhile pySpace = l := by
  cases l with
  | nil => rfl
  | cons c t =>
    have hc : pySpace c = false := h c (by simp)
    simp [List.dropWhile_cons, hc]

theorem stripChars_brace (a : List Char) :
    stripChars (('\x7b' :: a) ++ ['\x7d']) = ('\x7b' :: a) ++ ['\x7d'] := by
  rw [stripChars]
  rw [dropWhile_head_id (('\x7b' :: a) ++ ['\x7d'])
    (by intro c hc; simp at hc; subst hc; decide)]
  rw [List.reverse_append]
  rw [show (['\x7d'] : List Char).reverse = ['\x7d'] from rfl]
  rw [List.singleton_append]
  rw [dropWhile_head_id ('\x7d' :: ('\x7b' :: a).reverse)
    (by intro c hc; simp at hc; subst hc; decide)]
  rw [show ('\x7d' :: ('\x7b' :: a).reverse) = (('\x7b' :: a) ++ ['\x7d']).reverse
    from by simp]
  rw [List.reverse_reverse]

theorem stripChars_renderRecord (r : List Char × Meta) :
    stripChars (renderRecord r) = renderRecord r := by
  obtain ⟨t, m⟩ := r
  have hsh : renderRecord (t, m)
      = ('\x7b' :: (renderJStr ("text".toList) ++ ':' :: ' ' ::
          (renderJStr t ++ ',' :: ' ' :: (renderJStr ("metadata".toList) ++ ':' :: ' ' ::
            renderMeta m)))) ++ ['\x7d'] := by
    simp [renderRecord]
  rw [hsh]
  exact stripChars_brace _

theorem splitLines_append_line (l x : List Char) (h : '\n' ∉ l) :
    splitLines (l ++ '\n' :: x) = l :: splitLines x := by
  induction l with
  | nil =>
    rw [List.nil_append, splitLines]
    rw [if_pos rfl]
  | cons c cs ih =>
    have hc : ¬(c = '\n') := fun hcc => h (hcc ▸ List.mem_cons_self c cs)
    rw [List.cons_append, splitLines, if_neg hc]
    rw [ih fun hm => h (List.mem_cons_of_mem c hm)]

theorem splitLines_writeRecords (rs : List (List Char × Meta)) :
    splitLines (writeRecords rs) = rs.map renderRecord ++ [[]] := by
  induction rs with
  | nil => rw [writeRecords]; simp [splitLines]
  | cons r rs ih =>
    rw [show writeRecords (r :: rs) = renderRecord r ++ '\n' :: writeRecords rs by
      simp [writeRecords]]
    rw [splitLines_append_line _ _ (renderRecord_no_nl r), ih]
    simp

theorem load_chunks_lines_render (rs : List (List Char × Meta)) :
    ∀ idx, load_chunks_lines idx (rs.map renderRecord ++ [[]]) =
      some (chunksExpected idx rs) := by
  induction rs with
  | nil =>
    intro idx
    rw [List.map_nil, List.nil_append]
    simp +decide [load_chunks_lines, chunksExpected, stripChars]
  | cons r rs ih =>
    intro idx
    obtain ⟨t, m⟩ := r
    have hstrip : stripChars (renderRecord (t, m)) = renderRecord (t, m) :=
      stripChars_renderRecord (t, m)
    have hne : ¬(renderRecord (t, m) = []) := renderRecord_ne_nil (t, m)
    have hlk2 : lookupKey [(("text".toList : List Char), TopVal.vstr t),
        (("metadata".toList : List Char), TopVal.vobj m)] ("metadata".toList)
        = some (TopVal.vobj m) := by simp +decide [lookupKey]
    have hlk1 : lookupKey [(("text".toList : List Char), TopVal.vstr t),
        (("metadata".toList : List Char), TopVal.vobj m)] ("text".toList)
        = some (TopVal.vstr t) := by simp +decide [lookupKey]
    rw [List.map_cons, List.cons_append]
    rw [load_chunks_lines, hstrip, if_neg hne, parseRecordLine_render t m]
    simp only [hlk2, hlk1, ih (idx + 1)]
    simp [chunksExpected]

theorem load_documents_lines_render (rs : List (List Char × Meta)) :
    (∀ r ∈ rs, r.1 ≠ []) →
      load_documents_lines (rs.map renderRecord ++ [[]]) = some rs := by
  induction rs with
  | nil =>
    intro _
    rw [List.map_nil, List.nil_append]
    simp +decide [load_documents_lines, stripChars]
  | cons r rs ih =>
    intro h
    obtain ⟨t, m⟩ := r
    have ht : ¬(t = []) := h (t, m) (by simp)
    have hstrip : stripChars (renderRecord (t, m)) = renderRecord (t, m) :=
      stripChars_renderRecord (t, m)
    have hne : ¬(renderRecord (t, m) = []) := renderRecord_ne_nil (t, m)
    have hlk2 : lookupKey [(("text".toList : List Char), TopVal.vstr t),
        (("metadata".toList : List Char), TopVal.vobj m)] ("metadata".toList)
        = some (TopVal.vobj m) := by simp +decide [lookupKey]
    have hlk1 : lookupKey [(("text".toList : List Char), TopVal.vstr t),
        (("metadata".toList : List Char), TopVal.vobj m)] ("text".toList)
        = some (TopVal.vstr t) := by simp +decide [lookupKey]
    rw [List.map_cons, List.cons_append]
    rw [load_documents_lines, hstrip, if_neg hne, parseRecordLine_render t m]
    simp only [hlk1, hlk2, if_neg ht,
      ih (fun r hr => h r (List.mem_cons_of_mem (t, m) hr))]

theorem chunksExpected_of_nonempty (rs : List (List Char × Meta))
    (h : ∀ r ∈ rs, r.2 ≠ []) : ∀ idx, chunksExpected idx rs = rs := by
  induction rs with
  | nil => intro idx; rfl
  | cons r rs ih =>
    intro idx
    obtain ⟨t, m⟩ := r
    have hm : ¬(m = []) := h (t, m) (by simp)
    rw [chunksExpected, if_neg hm,
      ih (fun r hr => h r (List.mem_cons_of_mem (t, m) hr)) (idx + 1)]

/-- C9: writing passages as JSON lines and loading them back round-trips the
text always, and the metadata mapping exactly when it is non-empty; but
`load_chunks` replaces an empty metadata mapping by `{"chunk_index": idx}`
(the claim fails for empty metadata), while `load_documents` preserves even
empty metadata for every record whose text is non-empty. -/
theorem jsonl_roundtrip (rs : List (List Char × Meta)) :
    load_chunks (writeRecords rs) = some (chunksExpected 0 rs) ∧
    ((∀ r ∈ rs, r.2 ≠ []) → load_chunks (writeRecords rs) = some rs) ∧
    ((∀ r ∈ rs, r.1 ≠ []) → load_documents (writeRecords rs) = some rs) := by
  refine ⟨?_, ?_, ?_⟩
  · rw [load_chunks, splitLines_writeRecords]
    exact load_chunks_lines_render rs 0
  · intro h
    rw [load_chunks, splitLines_writeRecords, load_chunks_lines_render rs 0,
      chunksExpected_of_nonempty rs h 0]
  · intro h
    rw [load_documents, splitLines_writeRecords]
    exact load_documents_lines_render rs h

/-- Witness for C9 at a concrete record list with non-empty text and
non-empty metadata: both loaders round-trip it exactly. -/
theorem jsonl_roundtrip_witness :
    load_chunks (writeRecords [(("hi".toList : List Char),
        ([(("Header_1".toList : List Char), JVal.jstr ("A".toList)),
          (("merged_chunks".toList : List Char), JVal.jint 2)] : Meta))]) =
      some [(("hi".toList : List Char),
        ([(("Header_1".toList : List Char), JVal.jstr ("A".toList)),
          (("merged_chunks".toList : List Char), JVal.jint 2)] : Meta))] ∧
    load_documents (writeRecords [(("hi".toList : List Char),
        ([(("Header_1".toList : List Char), JVal.jstr ("A".toList)),
          (("merged_chunks".toList : List Char), JVal.jint 2)] : Meta))]) =
      some [(("hi".toList : List Char),
        ([(("Header_1".toList : List Char), JVal.jstr ("A".toList)),
          (("merged_chunks".toList : List Char), JVal.jint 2)] : Meta))] :=
  ⟨(jsonl_roundtrip [(("hi".toList : List Char),
        ([(("Header_1".toList : List Char), JVal.jstr ("A".toList)),
          (("merged_chunks".toList : List Char), JVal.jint 2)] : Meta))]).2.1
      (by decide),
   (jsonl_roundtrip [(("hi".toList : List Char),
        ([(("Header_1".toList : List Char), JVal.jstr ("A".toList)),
          (("merged_chunks".toList : List Char), JVal.jint 2)] : Meta))]).2.2
      (by decide)⟩

/-- Counterexample to C9 as claimed: a passage with empty metadata is not
read back unchanged by `load_chunks`; the empty mapping comes back as
`{"chunk_index": 0}`. -/
theorem jsonl_roundtrip_cex :
    load_chunks (writeRecords [(("hi".toList : List Char), ([] : Meta))]) =
      some [(("hi".toList : List Char),
        ([(("chunk_index".toList : List Char), JVal.jint 0)] : Meta))] ∧
    load_chunks (writeRecords [(("hi".toList : List Char), ([] : Meta))]) ≠
      some [(("hi".toList : List Char), ([] : Meta))] :=
  ⟨by decide, by decide⟩
